import Mathlib

/-!
# Verification of the HipHop `FileCache` archive store

Shallow embedding of `hphp/util/file-cache.cpp`: an embedded archive store
that packages files and directory markers into one binary blob and serves
byte-exact reads by name.

Modelling conventions:
* Byte sequences (file payloads, path names, the serialized archive) are
  `List Nat`, each element a byte value `< 256`.
* `Buffer` mirrors the C++ `FileCache::Buffer`: a signed length field
  (`-2` directory, `-1` source placeholder, `0` empty file, `> 0` byte
  count), an optional raw-data pointer and an optional compressed form.
  A C++ null pointer is `none`; the pointed-to bytes are carried by `some`.
* `FileMap` is the entry table: an association list keyed by path, first
  match wins; the builder and the loaders only ever append fresh keys.
* 16/32-bit on-disk fields are little-endian two's-complement, modelled by
  `encInt16/encInt32` (writer) and `decInt16/decInt32` (reader) over `Nat`
  bytes with explicit `% 2^w` arithmetic.
* The external compression codec (`gzencode`/`gzdecode`) and the
  compressibility policy are parameters (a `Codec` structure), as they are
  external collaborators of this file.
* C `assert`/`always_assert` preconditions are modelled as explicit checks
  that produce `Except.error`; filesystem I/O is abstracted by passing the
  file contents directly.
-/

namespace FileCache

/-- A path / byte string: a list of byte values. `47` is `'/'`. -/
abbrev Str := List Nat

/-- `FileCache::Buffer`: one archive entry's payload.
`len` is the signed length field (`-2` directory, `-1` source placeholder,
`0` empty static file, `> 0` static file byte count); `data` the raw bytes
(`none` = null pointer); `clen`/`cdata` the compressed form. -/
structure Buffer where
  len : Int
  data : Option (List Nat)
  clen : Int
  cdata : Option (List Nat)
deriving Repr, DecidableEq

/-- The entry table `m_files`: path → buffer, unique keys, append-only. -/
abbrev FileMap := List (Str × Buffer)

/-- `m_files.find(name)`: first entry with the given key. -/
def lookup' (t : FileMap) (k : Str) : Option Buffer :=
  (t.find? (fun p => p.1 = k)).map Prod.snd

/-- The buffer stored for a synthesized directory entry
(`writeDirectories`): `len = -2`, `clen = -2`, no bytes. -/
def dirBuffer : Buffer := ⟨-2, none, -2, none⟩

/-- The external compression collaborator (`is_compressible_file`,
`gzencode`, `gzdecode`).  `gzencode`/`gzdecode` return `none` for a C null
result (failure). -/
structure Codec where
  isCompressible : Str → Bool
  gzencode : List Nat → Option (List Nat)
  gzdecode : List Nat → Option (List Nat)

/-! ## Little-endian integer fields -/

/-- Encode a 16-bit signed field as two little-endian bytes
(two's complement, explicit `% 2^16`). -/
def encInt16 (i : Int) : List Nat :=
  let n := (i % 65536).toNat
  [n % 256, n / 256]

/-- Decode two little-endian bytes as a 16-bit signed value. -/
def decInt16 : List Nat → Int
  | [a, b] =>
    let n := a % 256 + 256 * (b % 256)
    if n < 32768 then (n : Int) else (n : Int) - 65536
  | _ => 0

/-- Encode a 32-bit signed field as four little-endian bytes. -/
def encInt32 (i : Int) : List Nat :=
  let n := (i % 4294967296).toNat
  [n % 256, n / 256 % 256, n / 65536 % 256, n / 16777216]

/-- Decode four little-endian bytes as a 32-bit signed value. -/
def decInt32 : List Nat → Int
  | [a, b, c, d] =>
    let n := a % 256 + 256 * (b % 256) + 65536 * (c % 256) + 16777216 * (d % 256)
    if n < 2147483648 then (n : Int) else (n : Int) - 4294967296
  | _ => 0

/-! ## Bounds-checked reads

Both loaders read fields through `read_bytes`, which fails unless the
requested number of bytes is available.  `readN n bs` returns the first
`n` bytes and the remainder, or `none` when fewer than `n` remain. -/

def readN (n : Nat) (bs : List Nat) : Option (List Nat × List Nat) :=
  if n ≤ bs.length then some (bs.take n, bs.drop n) else none

/-! ## Query API (`FileCache::exists/fileExists/dirExists/read/fileSize`)

All queries first check `name && *name` (non-empty name), then look the
relative path up in the table. -/

/-- `FileCache::exists`: the path is a key in the table. -/
def exists' (t : FileMap) (name : Str) : Bool :=
  !name.isEmpty && (lookup' t name).isSome

/-- `FileCache::fileExists`: present with length sentinel `≥ -1`
(a source placeholder also counts as a file). -/
def fileExists (t : FileMap) (name : Str) : Bool :=
  !name.isEmpty &&
    match lookup' t name with
    | some b => -1 ≤ b.len
    | none => false

/-- `FileCache::dirExists`: present with length sentinel `= -2`. -/
def dirExists (t : FileMap) (name : Str) : Bool :=
  !name.isEmpty &&
    match lookup' t name with
    | some b => b.len = -2
    | none => false

/-- `FileCache::read(name, len, compressed)`.  `len0`/`c0` are the caller's
in-values of the by-reference parameters; the result triple is the returned
pointer (`none` = null), and the out-values of `len` and `compressed`.
On a miss the by-reference parameters keep their in-values.  The `len = 0`
case returns the shared empty-sequence sentinel `some []` (the C `""`). -/
def read (t : FileMap) (name : Str) (len0 : Int) (c0 : Bool) :
    Option (List Nat) × Int × Bool :=
  if !name.isEmpty then
    match lookup' t name with
    | some buf =>
      if c0 && buf.cdata.isSome then (buf.cdata, buf.clen, true)
      else if !c0 && buf.data.isNone && buf.cdata.isSome then
        (buf.cdata, buf.clen, true)
      else if buf.len = 0 then (some [], 0, false)
      else (buf.data, buf.len, false)
    | none => (none, len0, c0)
  else (none, len0, c0)

/-- `FileCache::fileSize` (relative path): the raw length when known; with
only a compressed form resident, a one-off `gzdecode` to learn the size
(format error if it fails); `-1` when absent or a directory. -/
def fileSize (codec : Codec) (t : FileMap) (name : Str) : Except String Int :=
  if name.isEmpty then .ok (-1)
  else
    match lookup' t name with
    | some b =>
      if 0 ≤ b.len then .ok b.len
      else
        match b.cdata with
        | some c =>
          match codec.gzdecode (c.take b.clen.toNat) with
          | none => .error "Bad compressed data in archive"
          | some u => .ok (u.length : Int)
        | none => .ok (-1)
    | none => .ok (-1)

/-! ## Archive builder (`FileCache::write`, `writeDirectories`) -/

/-- `FileCache::writeDirectories`: for every index `i` with
`1 ≤ i < name.size` and `name[i] = '/'`, insert a directory entry for the
proper prefix `name.take i` unless that key already exists. -/
def writeDirectories (t : FileMap) (name : Str) : FileMap :=
  (List.range name.length).foldl
    (fun acc i =>
      if 1 ≤ i && name.getD i 0 == 47 then
        let dir := name.take i
        if exists' acc dir then acc else acc ++ [(dir, dirBuffer)]
      else acc)
    t

/-- `FileCache::write(name, addDirectories)`: register a source
placeholder (`len = -1`, no bytes). The `assert(name && *name)` and
`assert(!exists(name))` preconditions are modelled as checks. -/
def write' (t : FileMap) (name : Str) (addDirectories : Bool) :
    Except String FileMap :=
  if name.isEmpty then .error "assert: name && *name"
  else if exists' t name then .error "assert: !exists(name)"
  else
    let t1 := t ++ [(name, ⟨-1, none, -1, none⟩)]
    .ok (if addDirectories then writeDirectories t1 name else t1)

/-- `FileCache::write(name, fullpath)`: register a static file.  The
filesystem read is abstracted: `contents` are the bytes of `fullpath`.
When the path is compressible and non-empty, `gzencode` is attempted and
the compressed form is kept only when
`new_len < ((buffer.len * 3) / 4)` (C++ `int` arithmetic). -/
def writeFile (codec : Codec) (t : FileMap) (name : Str) (contents : List Nat) :
    Except String FileMap :=
  if name.isEmpty then .error "assert: name && *name"
  else if exists' t name then .error "assert: !exists(name)"
  else
    let len : Int := contents.length
    let buffer : Buffer :=
      if contents.length ≠ 0 then
        let withData : Buffer := ⟨len, some contents, -1, none⟩
        if codec.isCompressible name then
          match codec.gzencode contents with
          | some compressed =>
            if (compressed.length : Int) < ((len * 3) / 4) then
              ⟨len, some contents, (compressed.length : Int), some compressed⟩
            else withData
          | none => withData
        else withData
      else ⟨len, none, -1, none⟩
    .ok (writeDirectories (t ++ [(name, buffer)]) name)

/-- Register a list of `(path, contents)` pairs through
`FileCache::write(name, fullpath)`, left to right. -/
def buildTable (codec : Codec) : List (Str × List Nat) → FileMap →
    Except String FileMap
  | [], t => .ok t
  | (n, c) :: rest, t =>
    match writeFile codec t n c with
    | .ok t' => buildTable codec rest t'
    | .error e => .error e

/-! ## Serialization (`FileCache::save`) -/

/-- The flag/length/payload part of one serialized record: the one-byte
compressed flag, then either (`int32 clen`, `clen` compressed bytes, a
null terminator) or (`int32 len`, and when `len > 0` the raw bytes plus a
null terminator). -/
def savePayloadPart (b : Buffer) : List Nat :=
  match b.cdata with
  | some c => 1 :: (encInt32 b.clen ++ (c.take b.clen.toNat ++ [0]))
  | none =>
    0 :: (encInt32 b.len ++
      if 0 < b.len then (b.data.getD []).take b.len.toNat ++ [0] else [])

/-- One serialized record: `int16 name_len`, the name bytes, then the
flag/length/payload part. -/
def saveRecord (name : Str) (b : Buffer) : List Nat :=
  encInt16 (name.length : Int) ++ name ++ savePayloadPart b

/-- The concatenation of the serialized records of a table, in order. -/
def saveRecords (t : FileMap) : List Nat :=
  (t.map (fun p => saveRecord p.1 p.2)).flatten

/-- `FileCache::save`: the header (`int16 -1`, `int16 version = 1`)
followed by one record per table entry, in table order. -/
def saveBytes (t : FileMap) : List Nat :=
  encInt16 (-1) ++ encInt16 1 ++ saveRecords t

/-! ## Version detection (`FileCache::getVersion`)

The pure byte-level part, after the external new-cache autodetection has
answered `false`.  Reads a 2-byte tag (initialised to `-1`, returned as
`-1` when the read fails or the tag is positive), then a 2-byte version
(initialised to `-1`, partially overwritten when only one byte remains). -/
def getVersion (bytes : List Nat) : Int :=
  if bytes.length < 2 then -1
  else if 0 < decInt16 (bytes.take 2) then -1
  else if 4 ≤ bytes.length then decInt16 ((bytes.drop 2).take 2)
  else if bytes.length = 3 then decInt16 [bytes.getD 2 0, 255]
  else -1

/-! ## Owned-deserialization loader (`FileCache::load`) -/

/-- The payload-reading step of `FileCache::load` for a record with
`len > 0`: when `version > 0` it reads `len + 1` bytes and requires the
last to be the null terminator (`always_assert(buffer.data[len] == 0)`),
returning the first `len` bytes; when `version ≤ 0` it reads exactly
`len` bytes (the terminator is synthesized in memory, not read). -/
def readPayload (version : Int) (len : Nat) (bytes : List Nat) :
    Except String (List Nat × List Nat) :=
  if 0 < version then
    match readN (len + 1) bytes with
    | none => .error "Bad data in archive"
    | some (chunk, rest) =>
      if chunk.getLast? = some 0 then .ok (chunk.take len, rest)
      else .error "always_assert: data terminator"
  else
    match readN len bytes with
    | none => .error "Bad data in archive"
    | some (chunk, rest) => .ok (chunk, rest)

/-- The compressed-flag handling of `FileCache::load` for a record with
`len > 0`: raw records store the payload; compressed records either defer
(`onDemandUncompress`: keep only the compressed form, `len := -1`) or
eagerly `gzdecode` (format error on failure) and keep both forms. -/
def finishEntry (codec : Codec) (onDemand : Bool) (acc : FileMap)
    (name : Str) (c : Nat) (len : Int) (payload : List Nat) :
    Except String FileMap :=
  if c ≠ 0 then
    if onDemand then .ok (acc ++ [(name, ⟨-1, none, len, some payload⟩)])
    else
      match codec.gzdecode payload with
      | none => .error "Bad compressed data in archive"
      | some u =>
        .ok (acc ++ [(name, ⟨(u.length : Int), some u, len, some payload⟩)])
  else .ok (acc ++ [(name, ⟨len, some payload, -1, none⟩)])

/-- One iteration of the record loop of `FileCache::load`: `ok none` is
end-of-file (a failed 2-byte read of `name_len` sets `feof` → `break`);
a non-positive `name_len`, a short name read, a duplicate path, a short
flag/length read or a bad payload abandon the load with a format error;
otherwise the new table and the remaining bytes are returned. -/
def loadStep (codec : Codec) (onDemand : Bool) (version : Int)
    (acc : FileMap) (bytes : List Nat) :
    Except String (Option (FileMap × List Nat)) :=
  match readN 2 bytes with
  | none => .ok none
  | some (nlb, r1) =>
    if decInt16 nlb ≤ 0 then .error "Bad file name length in archive"
    else
      match readN (decInt16 nlb).toNat r1 with
      | none => .error "Bad file name in archive"
      | some (name, r2) =>
        if exists' acc name then .error "Same file appeared twice"
        else
          match readN 1 r2 with
          | none => .error "Bad data length in archive"
          | some (cb, r3) =>
            match readN 4 r3 with
            | none => .error "Bad data length in archive"
            | some (lb, r4) =>
              if 0 < decInt32 lb then
                match readPayload version (decInt32 lb).toNat r4 with
                | .error e => .error e
                | .ok (payload, r5) =>
                  match finishEntry codec onDemand acc name (cb.getD 0 0)
                      (decInt32 lb) payload with
                  | .error e => .error e
                  | .ok acc' => .ok (some (acc', r5))
              else
                .ok (some (acc ++ [(name, ⟨decInt32 lb, none, -1, none⟩)], r4))

/-- The record loop of `FileCache::load`: iterate `loadStep` until
end-of-file or a format error.  `fuel` bounds the number of records; each
record consumes at least two bytes, so `bytes.length + 1` is always
enough. -/
def loadLoop (codec : Codec) (onDemand : Bool) (version : Int) :
    Nat → FileMap → List Nat → Except String FileMap
  | 0, acc, _ => .ok acc
  | fuel + 1, acc, bytes =>
    match loadStep codec onDemand version acc bytes with
    | .error e => .error e
    | .ok none => .ok acc
    | .ok (some (acc', rest)) => loadLoop codec onDemand version fuel acc' rest

/-- `FileCache::load(filename, onDemandUncompress, version)`: when
`version > 0` skip the 4-byte header, then run the record loop on an
initially empty table. -/
def load (codec : Codec) (onDemand : Bool) (version : Int)
    (bytes : List Nat) : Except String FileMap :=
  if 0 < version then
    loadLoop codec onDemand version ((bytes.drop 4).length + 1) [] (bytes.drop 4)
  else loadLoop codec onDemand version (bytes.length + 1) [] bytes

/-! ## Zero-copy mapped loader (`FileCache::loadMmap`) -/

/-- One iteration of the record loop of `FileCache::loadMmap` over the
mapped region: `ok none` is the clean loop exit (`p < e` fails).  Unlike
the owned loader there is no `feof` escape: a short 2-byte read of
`name_len` is already a format error.  The payload check is
`p + len >= e → error` (so the payload *and* its terminator must fit),
then `always_assert(*p == 0)` on the terminator.  Compressed entries are
always stored deferred. -/
def loadMmapStep (acc : FileMap) (bytes : List Nat) :
    Except String (Option (FileMap × List Nat)) :=
  if bytes.isEmpty then .ok none
  else
    match readN 2 bytes with
    | none => .error "Bad file name length in archive"
    | some (nlb, r1) =>
      if decInt16 nlb ≤ 0 then .error "Bad file name length in archive"
      else
        match readN (decInt16 nlb).toNat r1 with
        | none => .error "Bad file name in archive"
        | some (name, r2) =>
          if exists' acc name then .error "Same file appeared twice"
          else
            match readN 1 r2 with
            | none => .error "Bad data length in archive"
            | some (cb, r3) =>
              match readN 4 r3 with
              | none => .error "Bad data length in archive"
              | some (lb, r4) =>
                if 0 < decInt32 lb then
                  if r4.length ≤ (decInt32 lb).toNat then
                    .error "Bad data in archive"
                  else
                    if (r4.drop (decInt32 lb).toNat).headD 1 ≠ 0 then
                      .error "always_assert: data terminator"
                    else
                      .ok (some (acc ++ [(name,
                        if cb.getD 0 0 ≠ 0 then
                          ⟨-1, none, decInt32 lb,
                            some (r4.take (decInt32 lb).toNat)⟩
                        else
                          ⟨decInt32 lb, some (r4.take (decInt32 lb).toNat),
                            -1, none⟩)],
                        (r4.drop (decInt32 lb).toNat).tail))
                else
                  .ok (some (acc ++ [(name, ⟨decInt32 lb, none, -1, none⟩)], r4))

/-- The record loop of `FileCache::loadMmap`: iterate `loadMmapStep`
until the region is exhausted or a format error occurs. -/
def loadMmapLoop : Nat → FileMap → List Nat → Except String FileMap
  | 0, acc, _ => .ok acc
  | fuel + 1, acc, bytes =>
    match loadMmapStep acc bytes with
    | .error e => .error e
    | .ok none => .ok acc
    | .ok (some (acc', rest)) => loadMmapLoop fuel acc' rest

/-- `FileCache::loadMmap(filename, version)` (own-format path): requires
`version > 0` (`always_assert`), skips the 4-byte header and parses the
whole mapped region. -/
def loadMmap (version : Int) (region : List Nat) : Except String FileMap :=
  if version ≤ 0 then .error "always_assert: version > 0"
  else loadMmapLoop ((region.drop 4).length + 1) [] (region.drop 4)

/-! ## Process-wide configuration (`SourceRoot`, `UseNewCache`) -/

/-- The process-wide configuration: the source-root path and the
new-cache feature flag. -/
structure Config where
  sourceRoot : Str
  useNewCache : Bool
deriving Repr, DecidableEq

/-- `FileCache::GetRelativePath`: strip the configured source-root when it
is a proper leading byte-for-byte match, then one trailing `/`. -/
def GetRelativePath (sourceRoot : Str) (path : Str) : Str :=
  let relative :=
    if 0 < sourceRoot.length && sourceRoot.length < path.length &&
        path.take sourceRoot.length == sourceRoot then
      path.drop sourceRoot.length
    else path
  if relative.getLast? = some 47 then relative.dropLast else relative

/-- `FileCache::getVersion` with its global-state effect: when the
external `CacheType::isNewCache` autodetection fires (`isNew`), the
global `UseNewCache` flag is set and `2` is returned; otherwise the pure
byte-level detection runs and the configuration is untouched. -/
def getVersionSt (isNew : Bool) (cfg : Config) (bytes : List Nat) :
    Int × Config :=
  if isNew then (2, { cfg with useNewCache := true })
  else (getVersion bytes, cfg)

/-- `FileCache::load` with its global-state view: it throws when
`UseNewCache` is set and never modifies the configuration. -/
def loadSt (codec : Codec) (cfg : Config) (onDemand : Bool) (version : Int)
    (bytes : List Nat) : Except String FileMap × Config :=
  if cfg.useNewCache then
    (.error "Non-mmap load not supported with UseNewCache enabled", cfg)
  else (load codec onDemand version bytes, cfg)

/-- The configuration after `FileCache::loadMmap`'s (and `getVersion`'s)
new-cache autodetection: `UseNewCache` is set when the detection fires. -/
def autodetectCfg (isNew : Bool) (cfg : Config) : Config :=
  if isNew then { cfg with useNewCache := true } else cfg

/-- `FileCache::loadMmap` with its global-state effect: the new-cache
autodetection may set `UseNewCache`; when the flag is (now) set the load
is delegated to the external cache manager (`mgrOk` abstracts its
result), otherwise the own-format mapped parse runs. -/
def loadMmapSt (isNew mgrOk : Bool) (cfg : Config) (version : Int)
    (region : List Nat) : Except String FileMap × Config :=
  (if (autodetectCfg isNew cfg).useNewCache then
    (if mgrOk then .ok [] else .error "Unable to load cache")
  else loadMmap version region, autodetectCfg isNew cfg)

/-- `FileCache::exists` with its global-state view: a non-relative query
normalizes through `GetRelativePath` (reading `SourceRoot`); the
configuration is never modified. -/
def existsSt (cfg : Config) (t : FileMap) (name : Str) (isRelative : Bool) :
    Bool × Config :=
  if isRelative then (exists' t name, cfg)
  else (exists' t (GetRelativePath cfg.sourceRoot name), cfg)

/-! ## Views and invariants used by the round-trip statements -/

/-- The buffer the owned loader reconstructs from the serialized form of
`b` (`onDemand` selects deferred decompression).  For a well-formed
builder buffer, eager reloading reproduces `b` itself; deferred reloading
keeps only the compressed form; buffers without a compressed form come
back with `clen = -1` (the loader's initialisation), which no query
observes. -/
def loadedBuf (onDemand : Bool) (b : Buffer) : Buffer :=
  match b.cdata with
  | some _ => if onDemand then ⟨-1, none, b.clen, b.cdata⟩ else b
  | none => ⟨b.len, b.data, -1, none⟩

/-- Apply `loadedBuf` to every entry of a table. -/
def reloadTable (onDemand : Bool) (t : FileMap) : FileMap :=
  t.map (fun p => (p.1, loadedBuf onDemand p.2))

/-- A well-formed entry name: non-empty and short enough for the on-disk
`int16 name_len` field. -/
def WFStr (s : Str) : Prop := 0 < s.length ∧ s.length < 32768

/-- A well-formed buffer, as the builder produces them: one of the four
sentinel shapes, with list lengths matching the length fields, payload
lengths representable in the `int32` field, and any retained compressed
form decodable back to the raw bytes. -/
def WFBuf (codec : Codec) (b : Buffer) : Prop :=
  (b.len = -2 ∧ b.data = none ∧ b.cdata = none) ∨
  (b.len = -1 ∧ b.data = none ∧ b.cdata = none) ∨
  (b.len = 0 ∧ b.data = none ∧ b.cdata = none) ∨
  (∃ payload, b.data = some payload ∧ b.len = (payload.length : Int) ∧
    0 < payload.length ∧ payload.length < 2147483648 ∧
    (b.cdata = none ∨
      ∃ c, b.cdata = some c ∧ b.clen = (c.length : Int) ∧
        0 < c.length ∧ c.length < 2147483648 ∧
        codec.gzdecode c = some payload))

/-- A well-formed table: well-formed names and buffers, distinct keys. -/
def WFTable (codec : Codec) (t : FileMap) : Prop :=
  (∀ p ∈ t, WFStr p.1 ∧ WFBuf codec p.2) ∧ (t.map Prod.fst).Nodup

/-- An honest codec: a successful `gzencode` yields a non-empty buffer
(`save` asserts `clen > 0`) that `gzdecode` maps back to the input. -/
structure CodecOK (codec : Codec) : Prop where
  enc_pos : ∀ s c, codec.gzencode s = some c → 0 < c.length
  enc_dec : ∀ s c, codec.gzencode s = some c → codec.gzdecode c = some s

/-- The two tables answer every query identically:
`exists/dirExists/fileExists/read/fileSize` agree on every path. -/
def QueryEquiv (codec : Codec) (t t' : FileMap) : Prop :=
  ∀ name : Str,
    exists' t' name = exists' t name ∧
    dirExists t' name = dirExists t name ∧
    fileExists t' name = fileExists t name ∧
    (∀ (len0 : Int) (c0 : Bool), read t' name len0 c0 = read t name len0 c0) ∧
    fileSize codec t' name = fileSize codec t name

/-! ## Helper lemmas -/

theorem readN_append (a b : List Nat) : readN a.length (a ++ b) = some (a, b) := by
  simp [readN]

theorem readN_eq_none {n : Nat} {bs : List Nat} :
    readN n bs = none ↔ bs.length < n := by
  simp only [readN]
  split <;> simp <;> omega

theorem readN_short (n : Nat) (bs : List Nat) (h : bs.length < n) :
    readN n bs = none := by
  simp [readN]; omega

theorem readN_eq_some {n : Nat} {bs : List Nat} {c r : List Nat} :
    readN n bs = some (c, r) ↔
      n ≤ bs.length ∧ c = bs.take n ∧ r = bs.drop n := by
  simp only [readN]
  split
  · rename_i h
    constructor
    · intro hs
      injection hs with hs
      injection hs with h1 h2
      exact ⟨h, h1.symm, h2.symm⟩
    · rintro ⟨-, rfl, rfl⟩
      rfl
  · rename_i h
    constructor
    · intro hs; cases hs
    · rintro ⟨hle, -, -⟩; exact absurd hle h

theorem encInt16_length (i : Int) : (encInt16 i).length = 2 := rfl

theorem encInt32_length (i : Int) : (encInt32 i).length = 4 := rfl

theorem decInt16_encInt16 (i : Int) (h1 : -32768 ≤ i) (h2 : i < 32768) :
    decInt16 (encInt16 i) = i := by
  simp only [encInt16, decInt16]
  omega

theorem decInt32_encInt32 (i : Int) (h1 : -2147483648 ≤ i) (h2 : i < 2147483648) :
    decInt32 (encInt32 i) = i := by
  simp only [encInt32, decInt32]
  omega

theorem lookup'_nil (k : Str) : lookup' [] k = none := rfl

theorem lookup'_append (t1 t2 : FileMap) (k : Str) :
    lookup' (t1 ++ t2) k = (lookup' t1 k).or (lookup' t2 k) := by
  simp only [lookup', List.find?_append]
  cases t1.find? (fun p => p.1 = k) <;> simp

theorem lookup'_single_eq (k : Str) (b : Buffer) :
    lookup' [(k, b)] k = some b := by
  simp [lookup']

theorem lookup'_single_ne (k k' : Str) (b : Buffer) (h : k ≠ k') :
    lookup' [(k, b)] k' = none := by
  simp [lookup', h]

theorem exists'_eq_false_of_lookup'_none {t : FileMap} {k : Str}
    (h : lookup' t k = none) : exists' t k = false := by
  simp [exists', h]

theorem lookup'_none_of_not_mem_keys {t : FileMap} {k : Str}
    (h : k ∉ t.map Prod.fst) : lookup' t k = none := by
  simp only [lookup', Option.map_eq_none', List.find?_eq_none]
  intro p hp
  simp only [decide_eq_true_eq]
  intro hk
  exact h (List.mem_map.mpr ⟨p, hp, hk⟩)

theorem mem_keys_of_lookup'_isSome {t : FileMap} {k : Str}
    (h : (lookup' t k).isSome) : k ∈ t.map Prod.fst := by
  by_contra hk
  rw [lookup'_none_of_not_mem_keys hk] at h
  simp at h

theorem foldl_extends (f : FileMap → Nat → FileMap)
    (hf : ∀ acc i, f acc i = acc ∨ ∃ x, f acc i = acc ++ [x]) :
    ∀ (L : List Nat) (acc : FileMap), ∃ ext, L.foldl f acc = acc ++ ext := by
  intro L
  induction L with
  | nil => intro acc; exact ⟨[], by simp⟩
  | cons j L ih =>
    intro acc
    rcases hf acc j with h | ⟨x, h⟩
    · rcases ih (f acc j) with ⟨ext, hext⟩
      exact ⟨ext, by simpa [h] using hext⟩
    · rcases ih (f acc j) with ⟨ext, hext⟩
      exact ⟨[x] ++ ext, by simp [List.foldl_cons, h, List.append_assoc] at hext ⊢; simpa using hext⟩

theorem writeDirectories_extends (t : FileMap) (name : Str) :
    ∃ ext, writeDirectories t name = t ++ ext := by
  apply foldl_extends
  intro acc i
  simp only
  split
  · split
    · exact Or.inl rfl
    · exact Or.inr ⟨_, rfl⟩
  · exact Or.inl rfl

theorem lookup'_writeDirectories_of_isSome {t : FileMap} {name k : Str}
    (h : (lookup' t k).isSome) :
    lookup' (writeDirectories t name) k = lookup' t k := by
  rcases writeDirectories_extends t name with ⟨ext, hext⟩
  rw [hext, lookup'_append]
  rcases Option.isSome_iff_exists.mp h with ⟨b, hb⟩
  simp [hb]

/-! ## C2 — `read` forces the compressed flag when only a compressed
form is resident -/

/-- C2: for a path present in the table whose entry has only a compressed
form (null raw-data pointer, non-null compressed pointer), `read` with
`compressed = false` requested returns the compressed bytes and length
and forces the output flag to `true`. -/
theorem read_compressed_only_forces_flag (t : FileMap) (name : Str)
    (b : Buffer) (c : List Nat) (len0 : Int)
    (hne : name ≠ []) (hl : lookup' t name = some b)
    (hd : b.data = none) (hc : b.cdata = some c) :
    read t name len0 false = (some c, b.clen, true) := by
  simp [read, hl, hd, hc, hne]

theorem read_compressed_only_forces_flag_witness :
    read [([97], ⟨-1, none, 3, some [7, 8, 9]⟩)] [97] 0 false =
      (some [7, 8, 9], 3, true) :=
  read_compressed_only_forces_flag _ _ _ [7, 8, 9] 0 (by decide)
    (by rfl) rfl rfl

/-! ## C3 — version detection -/

/-- C3 counterexample: the claim says `getVersion` reports unknown (`-1`)
on any archive whose first two-byte field is not the `-1` marker, and in
particular on `{0x00,0x00,0x01,0x00}`.  The code only rejects a
*positive* tag, so on that buffer (tag `0`) it reads and returns
version `1`, not `-1`. -/
theorem getVersion_zero_marker_counterexample :
    getVersion [0, 0, 1, 0] = 1 ∧ (1 : Int) ≠ -1 := by decide

/-- C3 amended: `getVersion` reports unknown (`-1`) whenever the first
two-byte field is *positive* (a plausible legacy record length); the
buffer `{0x00,0x00,0x01,0x00}` has tag `0`, which is not rejected, so it
reports version `1`, as does `{0xFF,0xFF,0x01,0x00}`. -/
theorem getVersion_detection_amended (bytes : List Nat)
    (h : 0 < decInt16 (bytes.take 2)) :
    getVersion bytes = -1 ∧ getVersion [0, 0, 1, 0] = 1 ∧
      getVersion [255, 255, 1, 0] = 1 := by
  refine ⟨?_, by decide, by decide⟩
  unfold getVersion
  split
  · rfl
  · simp [h]

theorem getVersion_detection_amended_witness :
    getVersion [2, 0, 1, 0] = -1 :=
  (getVersion_detection_amended [2, 0, 1, 0] (by decide)).1

/-! ## C10 — `read` returns null for directories and placeholders -/

/-- C10: for a directory entry (`len = -2`) or a bare source placeholder
(`len = -1`, no bytes), `read` returns the null pointer — the same value
as for an absent path — although `exists` (and for the placeholder,
`fileExists`) answers `true`; and `read` returns a non-null pointer
exactly when the entry has `len = 0` (shared empty sentinel), resident
raw data, or a resident compressed form. -/
theorem read_null_nonresident (t : FileMap) (name absent : Str)
    (b : Buffer) (len0 len1 : Int) (c0 c1 : Bool)
    (hne : name ≠ []) (hl : lookup' t name = some b) :
    (b.len = -2 → b.data = none → b.cdata = none →
      (read t name len0 c0).1 = none ∧ exists' t name = true) ∧
    (b.len = -1 → b.data = none → b.cdata = none →
      (read t name len0 c0).1 = none ∧ exists' t name = true ∧
        fileExists t name = true) ∧
    (lookup' t absent = none → (read t absent len1 c1).1 = none) ∧
    ((read t name len0 c0).1.isSome ↔
      (b.len = 0 ∨ b.data.isSome ∨ b.cdata.isSome)) := by
  refine ⟨?_, ?_, ?_, ?_⟩
  · intro h1 h2 h3
    constructor
    · simp [read, hl, hne, h2, h3, h1]
    · simp [exists', hl, hne]
  · intro h1 h2 h3
    refine ⟨?_, ?_, ?_⟩
    · simp [read, hl, hne, h2, h3, h1]
    · simp [exists', hl, hne]
    · simp [fileExists, hl, hne, h1]
  · intro h1
    by_cases ha : absent = []
    · simp [read, ha]
    · simp [read, h1, ha]
  · simp only [read, hne]
    rcases b with ⟨blen, bdata, bclen, bcdata⟩
    simp only [hl]
    rcases bdata with _ | d <;> rcases bcdata with _ | cd <;> rcases c0 with _ | _ <;>
      by_cases hz : blen = 0 <;>
      simp_all [List.isEmpty_iff]

theorem read_null_nonresident_witness :
    (read [([97], (⟨-2, none, -2, none⟩ : Buffer))] [97] 5 true).1 = none ∧
      exists' [([97], (⟨-2, none, -2, none⟩ : Buffer))] [97] = true :=
  (read_null_nonresident [([97], ⟨-2, none, -2, none⟩)] [97] [98] _ 5 0
    true false (by decide) rfl).1 rfl rfl rfl

/-! ## C6 — payload reading by sub-format version -/

/-- C6: in the owned loader, for a record with payload length `L > 0`:
when `version > 0` the reader consumes `L + 1` bytes and requires the last
consumed byte (index `L`) to be the null terminator; when `version ≤ 0`
it consumes exactly `L` bytes (the null terminator is then synthesized in
memory after the payload, not read from the stream). -/
theorem load_terminator_by_version (v : Int) (L : Nat) (bytes : List Nat)
    (hL : 0 < L) :
    (0 < v →
      ((readPayload v L bytes).isOk ↔
        (L + 1 ≤ bytes.length ∧ bytes.getD L 1 = 0)) ∧
      (∀ d r, readPayload v L bytes = .ok (d, r) →
        d = bytes.take L ∧ r = bytes.drop (L + 1) ∧
        bytes.length - r.length = L + 1)) ∧
    (v ≤ 0 →
      ((readPayload v L bytes).isOk ↔ L ≤ bytes.length) ∧
      (∀ d r, readPayload v L bytes = .ok (d, r) →
        d = bytes.take L ∧ r = bytes.drop L ∧
        bytes.length - r.length = L)) := by
  have hterm : ∀ (hlen : L + 1 ≤ bytes.length),
      ((bytes.take (L + 1)).getLast? = some 0 ↔ bytes.getD L 1 = 0) := by
    intro hlen
    have hidx : L < bytes.length := by omega
    have h1 : (bytes.take (L + 1)).getLast? = bytes[L]? := by
      rw [List.getLast?_eq_getElem?]
      have hlen' : (bytes.take (L + 1)).length = L + 1 := by
        simp; omega
      rw [hlen']
      simp only [Nat.add_sub_cancel]
      rw [List.getElem?_take]
      simp
    rw [h1, List.getElem?_eq_getElem hidx]
    simp [List.getD, List.getElem?_eq_getElem hidx]
  constructor
  · intro hv
    constructor
    · cases hr : readN (L + 1) bytes with
      | none =>
        have hlen := readN_eq_none.mp hr
        simp only [readPayload, if_pos hv, hr]
        constructor
        · intro h; cases h
        · intro h; omega
      | some pr =>
        obtain ⟨chunk, rest⟩ := pr
        obtain ⟨hle, rfl, rfl⟩ := readN_eq_some.mp hr
        simp only [readPayload, if_pos hv, hr]
        by_cases h0 : (bytes.take (L + 1)).getLast? = some 0
        · simp only [if_pos h0]
          constructor
          · intro _; exact ⟨hle, (hterm hle).mp h0⟩
          · intro _; rfl
        · simp only [if_neg h0]
          constructor
          · intro h; cases h
          · rintro ⟨-, hgd⟩
            exact absurd ((hterm hle).mpr hgd) h0
    · intro d r hok
      cases hr : readN (L + 1) bytes with
      | none => simp only [readPayload, if_pos hv, hr] at hok; cases hok
      | some pr =>
        obtain ⟨chunk, rest⟩ := pr
        obtain ⟨hle, rfl, rfl⟩ := readN_eq_some.mp hr
        simp only [readPayload, if_pos hv, hr] at hok
        split at hok
        · injection hok with hok
          injection hok with h1 h2
          subst h1 h2
          refine ⟨by rw [List.take_take]; simp, rfl, ?_⟩
          simp
          omega
        · cases hok
  · intro hv
    have hvnot : ¬ 0 < v := by omega
    constructor
    · cases hr : readN L bytes with
      | none =>
        have hlen := readN_eq_none.mp hr
        simp only [readPayload, if_neg hvnot, hr]
        constructor
        · intro h; cases h
        · intro h; omega
      | some pr =>
        obtain ⟨chunk, rest⟩ := pr
        obtain ⟨hle, rfl, rfl⟩ := readN_eq_some.mp hr
        simp only [readPayload, if_neg hvnot, hr]
        exact ⟨fun _ => hle, fun _ => rfl⟩
    · intro d r hok
      cases hr : readN L bytes with
      | none => simp only [readPayload, if_neg hvnot, hr] at hok; cases hok
      | some pr =>
        obtain ⟨chunk, rest⟩ := pr
        obtain ⟨hle, rfl, rfl⟩ := readN_eq_some.mp hr
        simp only [readPayload, if_neg hvnot, hr] at hok
        injection hok with hok
        injection hok with h1 h2
        subst h1 h2
        refine ⟨rfl, rfl, by simp; omega⟩

theorem load_terminator_by_version_witness :
    (readPayload 1 2 [5, 6, 0, 9]).isOk ∧
      readPayload 1 2 [5, 6, 0, 9] = .ok ([5, 6], [9]) ∧
      readPayload 0 2 [5, 6, 0, 9] = .ok ([5, 6], [0, 9]) := by
  have h := load_terminator_by_version 1 2 [5, 6, 0, 9] (by decide)
  exact ⟨((h.1 (by decide)).1).mpr (by decide), by rfl, by rfl⟩

/-! ## C4 — the 75% compression gate -/

/-- C4: registering a non-empty compressible file keeps the compressed
form exactly when the codec's output length is strictly below
`(len * 3) / 4` in the code's integer arithmetic (strictly less than 75%
of the raw size); otherwise only the raw bytes are kept. -/
theorem write_compression_threshold (codec : Codec) (t : FileMap)
    (name : Str) (contents comp : List Nat)
    (hne : name ≠ []) (hab : exists' t name = false)
    (hnz : contents ≠ []) (hic : codec.isCompressible name = true)
    (henc : codec.gzencode contents = some comp) :
    ∃ t', writeFile codec t name contents = .ok t' ∧
      lookup' t' name = some
        (if (comp.length : Int) < ((contents.length : Int) * 3) / 4 then
          ⟨(contents.length : Int), some contents, (comp.length : Int),
            some comp⟩
        else ⟨(contents.length : Int), some contents, -1, none⟩) := by
  have hie : name.isEmpty = false := by
    cases name with
    | nil => exact absurd rfl hne
    | cons a l => rfl
  have hnz' : contents.length ≠ 0 := by simpa using hnz
  have hlookup_t : lookup' t name = none := by
    by_contra hx
    have hs : (lookup' t name).isSome := by
      cases h : lookup' t name
      · exact absurd h hx
      · simp
    simp [exists', hs, hie] at hab
  have hmid : ∀ b : Buffer, lookup' (t ++ [(name, b)]) name = some b := by
    intro b
    rw [lookup'_append, hlookup_t, lookup'_single_eq]
    rfl
  have hstep : writeFile codec t name contents =
      .ok (writeDirectories (t ++ [(name,
        if (comp.length : Int) < ((contents.length : Int) * 3) / 4 then
          (⟨(contents.length : Int), some contents, (comp.length : Int),
            some comp⟩ : Buffer)
        else ⟨(contents.length : Int), some contents, -1, none⟩)]) name) := by
    simp only [writeFile, hie, Bool.false_eq_true, if_false, hab,
      if_pos hnz', hic, if_true, henc]
  refine ⟨_, hstep, ?_⟩
  rw [lookup'_writeDirectories_of_isSome (by rw [hmid]; rfl)]
  exact hmid _

theorem write_compression_threshold_witness :
    (∃ t', writeFile ⟨fun _ => true, fun _ => some (List.replicate 74 7),
        fun _ => none⟩ [] [97, 47, 98] (List.replicate 100 9) = .ok t' ∧
      lookup' t' [97, 47, 98] = some
        ⟨100, some (List.replicate 100 9), 74, some (List.replicate 74 7)⟩) ∧
    (∃ t', writeFile ⟨fun _ => true, fun _ => some (List.replicate 80 7),
        fun _ => none⟩ [] [97, 47, 98] (List.replicate 100 9) = .ok t' ∧
      lookup' t' [97, 47, 98] = some
        ⟨100, some (List.replicate 100 9), -1, none⟩) := by
  constructor
  · have h := write_compression_threshold
      ⟨fun _ => true, fun _ => some (List.replicate 74 7), fun _ => none⟩
      [] [97, 47, 98] (List.replicate 100 9) (List.replicate 74 7)
      (by decide) (by rfl) (by decide) rfl rfl
    simpa using h
  · have h := write_compression_threshold
      ⟨fun _ => true, fun _ => some (List.replicate 80 7), fun _ => none⟩
      [] [97, 47, 98] (List.replicate 100 9) (List.replicate 80 7)
      (by decide) (by rfl) (by decide) rfl rfl
    simpa using h

theorem lookup'_append_some {t : FileMap} {k : Str} {b : Buffer}
    (h : lookup' t k = some b) (ext : FileMap) :
    lookup' (t ++ ext) k = some b := by
  rw [lookup'_append, h]
  rfl

theorem foldl_preserves_some (f : FileMap → Nat → FileMap)
    (hf : ∀ acc i, f acc i = acc ∨ ∃ x, f acc i = acc ++ [x])
    (L : List Nat) (acc : FileMap) (k : Str) (b : Buffer)
    (h : lookup' acc k = some b) :
    lookup' (L.foldl f acc) k = some b := by
  rcases foldl_extends f hf L acc with ⟨ext, hext⟩
  rw [hext]
  exact lookup'_append_some h ext

/-- The step function of the `writeDirectories` fold. -/
def wdStep (name : Str) (acc : FileMap) (i : Nat) : FileMap :=
  if 1 ≤ i && name.getD i 0 == 47 then
    if exists' acc (name.take i) then acc
    else acc ++ [(name.take i, dirBuffer)]
  else acc

theorem writeDirectories_eq_fold (t : FileMap) (name : Str) :
    writeDirectories t name = (List.range name.length).foldl (wdStep name) t := rfl

theorem wdStep_extends (name : Str) :
    ∀ acc i, wdStep name acc i = acc ∨ ∃ x, wdStep name acc i = acc ++ [x] := by
  intro acc i
  unfold wdStep
  split
  · split
    · exact Or.inl rfl
    · exact Or.inr ⟨_, rfl⟩
  · exact Or.inl rfl

theorem lookup'_writeDirectories_of_some {t : FileMap} {name k : Str} {b : Buffer}
    (h : lookup' t k = some b) :
    lookup' (writeDirectories t name) k = some b := by
  rw [writeDirectories_eq_fold]
  exact foldl_preserves_some _ (wdStep_extends name) _ _ _ _ h

theorem writeDirectories_creates (t : FileMap) (name : Str) (i : Nat)
    (h1 : 1 ≤ i) (h2 : i < name.length) (h47 : name.getD i 0 = 47)
    (habs : lookup' t (name.take i) = none) :
    lookup' (writeDirectories t name) (name.take i) = some dirBuffer := by
  have htak_ne : name.take i ≠ [] := by
    have : (name.take i).length = i := by
      simp only [List.length_take]
      omega
    intro hnil
    rw [hnil] at this
    simp at this
    omega
  have key : ∀ (L : List Nat) (acc : FileMap), i ∈ L →
      (lookup' acc (name.take i) = none ∨
       lookup' acc (name.take i) = some dirBuffer) →
      lookup' (L.foldl (wdStep name) acc) (name.take i) = some dirBuffer := by
    intro L
    induction L with
    | nil => intro acc hi _; cases hi
    | cons j L ih =>
      intro acc hi hP
      rcases List.mem_cons.mp hi with rfl | hi'
      · -- this iteration processes index i
        have hstep : lookup' (wdStep name acc i) (name.take i) = some dirBuffer := by
          unfold wdStep
          rw [if_pos (by rw [h47]; simp [h1])]
          rcases hP with hnone | hsome
          · rw [if_neg (by simp [exists', hnone])]
            rw [lookup'_append, hnone, lookup'_single_eq]
            rfl
          · rw [if_pos (by simp [exists', hsome, htak_ne])]
            exact hsome
        simp only [List.foldl_cons]
        exact foldl_preserves_some _ (wdStep_extends name) _ _ _ _ hstep
      · -- index i is processed later; the invariant survives this step
        simp only [List.foldl_cons]
        apply ih _ hi'
        rcases wdStep_extends name acc j with heq | ⟨x, heq⟩
        · rw [heq]; exact hP
        · rw [heq]
          have hx : x.2 = dirBuffer := by
            revert heq
            unfold wdStep
            split
            · split
              · intro h; exact absurd (congrArg List.length h) (by simp)
              · intro h
                have h2 : [((name.take j : Str), dirBuffer)] = [x] :=
                  List.append_cancel_left h
                injection h2 with h3 _
                rw [← h3]
            · intro h; exact absurd (congrArg List.length h) (by simp)
          rcases hP with hnone | hsome
          · rw [lookup'_append, hnone]
            by_cases hk : x.1 = name.take i
            · right
              simp only [Option.none_or]
              rw [show x = (x.1, x.2) from rfl] at *
              rw [hk] at *
              rw [lookup'_single_eq, hx]
            · left
              simp only [Option.none_or]
              rw [show x = (x.1, x.2) from rfl]
              exact lookup'_single_ne _ _ _ hk
          · right
            exact lookup'_append_some hsome _
  rw [writeDirectories_eq_fold]
  exact key _ t (List.mem_range.mpr h2) (Or.inl habs)

/-! ## C8 — directory synthesis -/

/-- C8: registering `"a/b/c"` (bytes `[97,47,98,47,99]`) as a placeholder
with directory synthesis enabled makes `dirExists "a"`, `dirExists "a/b"`
and `fileExists "a/b/c"` true and stores no key with a trailing slash;
in general `writeDirectories` never overwrites an existing entry, and it
creates a directory entry at every prefix `name.take i` ending at a `'/'`
strictly after the first character whenever that prefix is absent. -/
theorem writeDirectories_synthesis :
    (∃ t', write' [] [97, 47, 98, 47, 99] true = .ok t' ∧
      dirExists t' [97] = true ∧ dirExists t' [97, 47, 98] = true ∧
      fileExists t' [97, 47, 98, 47, 99] = true ∧
      (∀ p ∈ t', p.1.getLast? ≠ some 47)) ∧
    (∀ (t : FileMap) (name k : Str) (b : Buffer), lookup' t k = some b →
      lookup' (writeDirectories t name) k = some b) ∧
    (∀ (t : FileMap) (name : Str) (i : Nat), 1 ≤ i → i < name.length →
      name.getD i 0 = 47 → lookup' t (name.take i) = none →
      lookup' (writeDirectories t name) (name.take i) = some dirBuffer) := by
  refine ⟨⟨[([97, 47, 98, 47, 99], ⟨-1, none, -1, none⟩),
    ([97], dirBuffer), ([97, 47, 98], dirBuffer)], by rfl,
    by decide, by decide, by decide, by decide⟩, ?_, ?_⟩
  · intro t name k b h
    exact lookup'_writeDirectories_of_some h
  · intro t name i h1 h2 h47 habs
    exact writeDirectories_creates t name i h1 h2 h47 habs

theorem writeDirectories_synthesis_witness :
    lookup' (writeDirectories [([120], dirBuffer)] [97, 47, 98])
      [97] = some dirBuffer :=
  writeDirectories_synthesis.2.2 [([120], dirBuffer)] [97, 47, 98] 1
    (by decide) (by decide) (by decide) (by decide)

/-! ## C9 — configuration mutation -/

/-- C9 counterexample: the claim says no operation mutates the
process-wide configuration, but when the external autodetection
recognises the new cache format, both `getVersion` and `loadMmap` set
the `UseNewCache` flag. -/
theorem config_mutation_counterexample :
    (getVersionSt true ⟨[], false⟩ []).2 ≠ ⟨[], false⟩ ∧
    (loadMmapSt true true ⟨[], false⟩ 1 []).2 ≠ ⟨[], false⟩ := by decide

/-- C9 amended: `SourceRoot` is never mutated by any operation; `load`
and the query operations never mutate the configuration at all; and
`getVersion`/`loadMmap` change only `UseNewCache`, raising it to `true`
exactly when the archive autodetects as new-cache format
(`useNewCache' = useNewCache || isNew`). -/
theorem config_mutation_amended (isNew mgrOk od isRel : Bool)
    (cfg : Config) (codec : Codec) (t : FileMap) (v : Int)
    (bytes : List Nat) (name : Str) :
    (getVersionSt isNew cfg bytes).2.sourceRoot = cfg.sourceRoot ∧
    (getVersionSt isNew cfg bytes).2.useNewCache =
      (cfg.useNewCache || isNew) ∧
    (loadMmapSt isNew mgrOk cfg v bytes).2.sourceRoot = cfg.sourceRoot ∧
    (loadMmapSt isNew mgrOk cfg v bytes).2.useNewCache =
      (cfg.useNewCache || isNew) ∧
    (loadSt codec cfg od v bytes).2 = cfg ∧
    (existsSt cfg t name isRel).2 = cfg := by
  refine ⟨?_, ?_, ?_, ?_, ?_, ?_⟩
  · cases isNew <;> rfl
  · cases isNew <;> simp [getVersionSt]
  · cases isNew <;> rfl
  · cases isNew <;> simp [loadMmapSt, autodetectCfg]
  · unfold loadSt; split <;> rfl
  · unfold existsSt; split <;> rfl

/-! ## Parsing helper lemmas for the record-step proofs -/

theorem isEmpty_false_of_length_pos {l : List Nat} (h : 0 < l.length) :
    l.isEmpty = false := by
  cases l with
  | nil => simp at h
  | cons a l => rfl

theorem readN_cons (a : Nat) (R : List Nat) :
    readN 1 (a :: R) = some ([a], R) := by
  simp [readN]

theorem take_len_append (a b : List Nat) : (a ++ b).take a.length = a := by
  simp

theorem drop_len_append (a b : List Nat) : (a ++ b).drop a.length = b := by
  simp

theorem readN_encInt16 (i : Int) (R : List Nat) :
    readN 2 (encInt16 i ++ R) = some (encInt16 i, R) := by
  have h := readN_append (encInt16 i) R
  rwa [encInt16_length] at h

theorem readN_encInt32 (i : Int) (R : List Nat) :
    readN 4 (encInt32 i ++ R) = some (encInt32 i, R) := by
  have h := readN_append (encInt32 i) R
  rwa [encInt32_length] at h

theorem getLast?_append_single (l : List Nat) (a : Nat) :
    (l ++ [a]).getLast? = some a := by
  induction l with
  | nil => rfl
  | cons x l ih =>
    cases l with
    | nil => rfl
    | cons y l' =>
      simp only [List.cons_append] at ih ⊢
      rw [List.getLast?_cons_cons]
      exact ih

theorem saveRecord_length_pos (name : Str) (b : Buffer) :
    0 < (saveRecord name b).length := by
  simp [saveRecord, encInt16]

/-- The owned loader's step on one well-formed serialized record:
a duplicate name is a format error; otherwise the record is consumed
exactly and the reloaded buffer is appended. -/
theorem loadStep_record (codec : Codec) (od : Bool) (acc : FileMap)
    (name : Str) (b : Buffer) (rest : List Nat)
    (hname : WFStr name) (hwf : WFBuf codec b) :
    loadStep codec od 1 acc (saveRecord name b ++ rest) =
      if exists' acc name then .error "Same file appeared twice"
      else .ok (some (acc ++ [(name, loadedBuf od b)], rest)) := by
  obtain ⟨hpos, hlt⟩ := hname
  have hsplit : saveRecord name b ++ rest =
      encInt16 (name.length : Int) ++ (name ++ (savePayloadPart b ++ rest)) := by
    simp [saveRecord, List.append_assoc]
  have hdec : decInt16 (encInt16 (name.length : Int)) = (name.length : Int) :=
    decInt16_encInt16 _ (by omega) (by omega)
  have htn : ((name.length : Int)).toNat = name.length := by omega
  rw [hsplit]
  unfold loadStep
  simp only [readN_encInt16, hdec, htn,
    if_neg (show ¬(name.length : Int) ≤ 0 by omega),
    readN_append name (savePayloadPart b ++ rest)]
  by_cases hex : exists' acc name = true
  · simp [hex]
  · simp only [hex, Bool.false_eq_true, if_false]
    -- now the flag/length/payload part, by cases on the buffer's shape
    obtain ⟨blen, bdata, bclen, bcdata⟩ := b
    have hwf' : ((blen = -2 ∨ blen = -1 ∨ blen = 0) ∧ bdata = none ∧
        bcdata = none) ∨
        (∃ payload, bdata = some payload ∧ blen = (payload.length : Int) ∧
          0 < payload.length ∧ payload.length < 2147483648 ∧
          (bcdata = none ∨
            ∃ c, bcdata = some c ∧ bclen = (c.length : Int) ∧
              0 < c.length ∧ c.length < 2147483648 ∧
              codec.gzdecode c = some payload)) := by
      rcases hwf with ⟨h1, h2, h3⟩ | ⟨h1, h2, h3⟩ | ⟨h1, h2, h3⟩ | h4
      · exact Or.inl ⟨Or.inl h1, h2, h3⟩
      · exact Or.inl ⟨Or.inr (Or.inl h1), h2, h3⟩
      · exact Or.inl ⟨Or.inr (Or.inr h1), h2, h3⟩
      · exact Or.inr h4
    rcases hwf' with ⟨hl3, h2, h3⟩ | ⟨payload, hdata, hlen, hp, hlt31, hc⟩
    · -- the three sentinel shapes: no payload bytes on disk
      subst h2 h3
      have hnl : ¬(0 : Int) < blen := by omega
      have hpp : savePayloadPart ⟨blen, none, bclen, none⟩ ++ rest =
          0 :: (encInt32 blen ++ rest) := by
        simp [savePayloadPart, if_neg hnl]
      rw [hpp]
      simp only [readN_cons, readN_encInt32,
        decInt32_encInt32 blen (by omega) (by omega), if_neg hnl]
      simp [loadedBuf]
    · -- a static file with bytes
      simp only at hdata hlen
      subst hdata hlen
      rcases hc with hcd | ⟨c', hcd, hclen, hcp, hclt, hdecode⟩
      · -- raw only
        simp only at hcd
        subst hcd
        have hpp : savePayloadPart
              ⟨(payload.length : Int), some payload, bclen, none⟩ ++ rest =
            0 :: (encInt32 (payload.length : Int) ++
              (payload ++ 0 :: rest)) := by
          simp only [savePayloadPart, Option.getD_some]
          rw [if_pos (by omega : (0 : Int) < (payload.length : Int))]
          simp only [Int.toNat_natCast, List.take_length]
          simp [List.append_assoc]
        have hrp : readPayload 1 ((payload.length : Int)).toNat
            (payload ++ 0 :: rest) = .ok (payload, rest) := by
          simp only [Int.toNat_natCast, readPayload, if_pos Int.one_pos]
          have hre : readN (payload.length + 1) (payload ++ 0 :: rest) =
              some (payload ++ [0], rest) := by
            have h := readN_append (payload ++ [0]) rest
            simpa [List.append_assoc] using h
          simp only [hre, if_pos (getLast?_append_single payload 0),
            take_len_append]
        rw [hpp]
        simp only [readN_cons, readN_encInt32,
          decInt32_encInt32 ((payload.length : Nat) : Int) (by omega) (by omega),
          if_pos (by omega : (0 : Int) < (payload.length : Int)), hrp]
        simp [finishEntry, loadedBuf]
      · -- raw plus retained compressed form
        simp only at hcd
        subst hcd
        have htcn : bclen.toNat = c'.length := by omega
        have hpp : savePayloadPart
              ⟨(payload.length : Int), some payload, bclen, some c'⟩ ++ rest =
            1 :: (encInt32 bclen ++ (c' ++ 0 :: rest)) := by
          simp only [savePayloadPart, htcn, List.take_length]
          simp [List.append_assoc]
        have hrp : readPayload 1 bclen.toNat (c' ++ 0 :: rest) =
            .ok (c', rest) := by
          simp only [htcn, readPayload, if_pos Int.one_pos]
          have hre : readN (c'.length + 1) (c' ++ 0 :: rest) =
              some (c' ++ [0], rest) := by
            have h := readN_append (c' ++ [0]) rest
            simpa [List.append_assoc] using h
          simp only [hre, if_pos (getLast?_append_single c' 0),
            take_len_append]
        rw [hpp]
        simp only [readN_cons, readN_encInt32,
          decInt32_encInt32 bclen (by omega) (by omega),
          if_pos (by omega : (0 : Int) < bclen), hrp]
        cases od with
        | false => simp [finishEntry, loadedBuf, hdecode]
        | true => simp [finishEntry, loadedBuf]

/-- The owned loader's step on a record whose path is already in the
table: the duplicate check fires right after the name is read, whatever
the rest of the record contains. -/
theorem loadStep_dup (codec : Codec) (od : Bool) (v : Int) (acc : FileMap)
    (name : Str) (b : Buffer) (rest : List Nat)
    (hname : WFStr name) (hex : exists' acc name = true) :
    loadStep codec od v acc (saveRecord name b ++ rest) =
      .error "Same file appeared twice" := by
  obtain ⟨hpos, hlt⟩ := hname
  have hsplit : saveRecord name b ++ rest =
      encInt16 (name.length : Int) ++ (name ++ (savePayloadPart b ++ rest)) := by
    simp [saveRecord, List.append_assoc]
  have hdec : decInt16 (encInt16 (name.length : Int)) = (name.length : Int) :=
    decInt16_encInt16 _ (by omega) (by omega)
  have htn : ((name.length : Int)).toNat = name.length := by omega
  rw [hsplit]
  unfold loadStep
  simp only [readN_encInt16, hdec, htn,
    if_neg (show ¬(name.length : Int) ≤ 0 by omega),
    readN_append name (savePayloadPart b ++ rest), hex]
  simp

/-- The mapped loader's step on one well-formed serialized record:
a duplicate name is a format error; otherwise the record is consumed
exactly and the deferred-compression buffer is appended. -/
theorem loadMmapStep_record (acc : FileMap) (name : Str) (b : Buffer)
    (rest : List Nat) (hname : WFStr name)
    (codec : Codec) (hwfc : WFBuf codec b) :
    loadMmapStep acc (saveRecord name b ++ rest) =
      if exists' acc name then .error "Same file appeared twice"
      else .ok (some (acc ++ [(name, loadedBuf true b)], rest)) := by
  obtain ⟨hpos, hlt⟩ := hname
  have hsplit : saveRecord name b ++ rest =
      encInt16 (name.length : Int) ++ (name ++ (savePayloadPart b ++ rest)) := by
    simp [saveRecord, List.append_assoc]
  have hdec : decInt16 (encInt16 (name.length : Int)) = (name.length : Int) :=
    decInt16_encInt16 _ (by omega) (by omega)
  have htn : ((name.length : Int)).toNat = name.length := by omega
  have hne : (encInt16 (name.length : Int) ++
      (name ++ (savePayloadPart b ++ rest))).isEmpty = false :=
    isEmpty_false_of_length_pos (by simp [encInt16])
  rw [hsplit]
  unfold loadMmapStep
  simp only [hne, Bool.false_eq_true, if_false, readN_encInt16, hdec, htn,
    if_neg (show ¬(name.length : Int) ≤ 0 by omega),
    readN_append name (savePayloadPart b ++ rest)]
  by_cases hex : exists' acc name = true
  · simp [hex]
  · simp only [hex, Bool.false_eq_true, if_false]
    obtain ⟨blen, bdata, bclen, bcdata⟩ := b
    have hwf' : ((blen = -2 ∨ blen = -1 ∨ blen = 0) ∧ bdata = none ∧
        bcdata = none) ∨
        (∃ payload, bdata = some payload ∧ blen = (payload.length : Int) ∧
          0 < payload.length ∧ payload.length < 2147483648 ∧
          (bcdata = none ∨
            ∃ c, bcdata = some c ∧ bclen = (c.length : Int) ∧
              0 < c.length ∧ c.length < 2147483648)) := by
      rcases hwfc with ⟨h1, h2, h3⟩ | ⟨h1, h2, h3⟩ | ⟨h1, h2, h3⟩ |
        ⟨payload, hdata, hlen, hp, hlt31, hc⟩
      · exact Or.inl ⟨Or.inl h1, h2, h3⟩
      · exact Or.inl ⟨Or.inr (Or.inl h1), h2, h3⟩
      · exact Or.inl ⟨Or.inr (Or.inr h1), h2, h3⟩
      · refine Or.inr ⟨payload, hdata, hlen, hp, hlt31, ?_⟩
        rcases hc with hcd | ⟨c, hcd, hclen, hcp, hclt, -⟩
        · exact Or.inl hcd
        · exact Or.inr ⟨c, hcd, hclen, hcp, hclt⟩
    rcases hwf' with ⟨hl3, h2, h3⟩ | ⟨payload, hdata, hlen, hp, hlt31, hc⟩
    · subst h2 h3
      have hnl : ¬(0 : Int) < blen := by omega
      have hpp : savePayloadPart ⟨blen, none, bclen, none⟩ ++ rest =
          0 :: (encInt32 blen ++ rest) := by
        simp [savePayloadPart, if_neg hnl]
      rw [hpp]
      simp only [readN_cons, readN_encInt32,
        decInt32_encInt32 blen (by omega) (by omega), if_neg hnl]
      simp [loadedBuf]
    · simp only at hdata hlen
      subst hdata hlen
      rcases hc with hcd | ⟨c', hcd, hclen, hcp, hclt⟩
      · -- raw only
        simp only at hcd
        subst hcd
        have hpp : savePayloadPart
              ⟨(payload.length : Int), some payload, bclen, none⟩ ++ rest =
            0 :: (encInt32 (payload.length : Int) ++
              (payload ++ 0 :: rest)) := by
          simp only [savePayloadPart, Option.getD_some]
          rw [if_pos (by omega : (0 : Int) < (payload.length : Int))]
          simp only [Int.toNat_natCast, List.take_length]
          simp [List.append_assoc]
        rw [hpp]
        simp only [readN_cons, readN_encInt32,
          decInt32_encInt32 ((payload.length : Nat) : Int) (by omega) (by omega),
          if_pos (by omega : (0 : Int) < (payload.length : Int)),
          Int.toNat_natCast]
        rw [if_neg (by simp : ¬(payload ++ 0 :: rest).length ≤ payload.length)]
        rw [show (payload ++ 0 :: rest).drop payload.length = 0 :: rest from
          drop_len_append payload (0 :: rest)]
        rw [if_neg (by simp)]
        rw [show (payload ++ 0 :: rest).take payload.length = payload from
          take_len_append payload (0 :: rest)]
        simp [loadedBuf]
      · -- compressed form retained: the mapped loader always defers
        simp only at hcd
        subst hcd
        have htcn : bclen.toNat = c'.length := by omega
        have hpp : savePayloadPart
              ⟨(payload.length : Int), some payload, bclen, some c'⟩ ++ rest =
            1 :: (encInt32 bclen ++ (c' ++ 0 :: rest)) := by
          simp only [savePayloadPart, htcn, List.take_length]
          simp [List.append_assoc]
        rw [hpp]
        simp only [readN_cons, readN_encInt32,
          decInt32_encInt32 bclen (by omega) (by omega),
          if_pos (by omega : (0 : Int) < bclen), htcn]
        rw [if_neg (by simp : ¬(c' ++ 0 :: rest).length ≤ c'.length)]
        rw [show (c' ++ 0 :: rest).drop c'.length = 0 :: rest from
          drop_len_append c' (0 :: rest)]
        rw [if_neg (by simp)]
        rw [show (c' ++ 0 :: rest).take c'.length = c' from
          take_len_append c' (0 :: rest)]
        simp [loadedBuf]

/-- The mapped loader's step on a record whose path is already in the
table: the duplicate check fires right after the name is read. -/
theorem loadMmapStep_dup (acc : FileMap) (name : Str) (b : Buffer)
    (rest : List Nat) (hname : WFStr name)
    (hex : exists' acc name = true) :
    loadMmapStep acc (saveRecord name b ++ rest) =
      .error "Same file appeared twice" := by
  obtain ⟨hpos, hlt⟩ := hname
  have hsplit : saveRecord name b ++ rest =
      encInt16 (name.length : Int) ++ (name ++ (savePayloadPart b ++ rest)) := by
    simp [saveRecord, List.append_assoc]
  have hdec : decInt16 (encInt16 (name.length : Int)) = (name.length : Int) :=
    decInt16_encInt16 _ (by omega) (by omega)
  have htn : ((name.length : Int)).toNat = name.length := by omega
  have hne : (encInt16 (name.length : Int) ++
      (name ++ (savePayloadPart b ++ rest))).isEmpty = false :=
    isEmpty_false_of_length_pos (by simp [encInt16])
  rw [hsplit]
  unfold loadMmapStep
  simp only [hne, Bool.false_eq_true, if_false, readN_encInt16, hdec, htn,
    if_neg (show ¬(name.length : Int) ≤ 0 by omega),
    readN_append name (savePayloadPart b ++ rest), hex]
  simp

theorem loadLoop_nil (codec : Codec) (od : Bool) (v : Int) (fuel : Nat)
    (acc : FileMap) : loadLoop codec od v fuel acc [] = .ok acc := by
  cases fuel with
  | zero => rfl
  | succ f => simp [loadLoop, loadStep, readN]

theorem loadMmapLoop_nil (fuel : Nat) (acc : FileMap) :
    loadMmapLoop fuel acc [] = .ok acc := by
  cases fuel with
  | zero => rfl
  | succ f => simp [loadMmapLoop, loadMmapStep]

theorem lookup'_cons (n : Str) (b : Buffer) (t : FileMap) (k : Str) :
    lookup' ((n, b) :: t) k = if n = k then some b else lookup' t k := by
  simp only [lookup', List.find?_cons]
  by_cases h : n = k
  · simp [h]
  · simp [h]

theorem saveRecords_cons (n : Str) (b : Buffer) (t : FileMap) :
    saveRecords ((n, b) :: t) = saveRecord n b ++ saveRecords t := by
  simp [saveRecords]

theorem saveRecords_length_ge (t : FileMap) :
    t.length ≤ (saveRecords t).length := by
  induction t with
  | nil => simp [saveRecords]
  | cons p t ih =>
    obtain ⟨n, b⟩ := p
    rw [saveRecords_cons]
    have := saveRecord_length_pos n b
    simp only [List.length_append, List.length_cons]
    omega

theorem reloadTable_cons (od : Bool) (n : Str) (b : Buffer) (t : FileMap) :
    reloadTable od ((n, b) :: t) = (n, loadedBuf od b) :: reloadTable od t := by
  simp [reloadTable]

theorem reloadTable_keys (od : Bool) (t : FileMap) :
    (reloadTable od t).map Prod.fst = t.map Prod.fst := by
  simp [reloadTable, Function.comp]

/-- Running the owned loader over the concatenated records of a table with
fresh, distinct, well-formed entries consumes them all and appends their
reloaded buffers. -/
theorem loadLoop_records (codec : Codec) (od : Bool) :
    ∀ (recs : FileMap) (fuel : Nat) (acc : FileMap) (tail : List Nat),
      (∀ p ∈ recs, WFStr p.1 ∧ WFBuf codec p.2) →
      (∀ p ∈ recs, lookup' acc p.1 = none) →
      ((recs.map Prod.fst).Nodup) →
      loadLoop codec od 1 (recs.length + fuel + 1) acc
          (saveRecords recs ++ tail) =
        loadLoop codec od 1 (fuel + 1) (acc ++ reloadTable od recs) tail := by
  intro recs
  induction recs with
  | nil =>
    intro fuel acc tail _ _ _
    simp [saveRecords, reloadTable]
  | cons p recs ih =>
    intro fuel acc tail hwf hacc hnd
    obtain ⟨n, b⟩ := p
    have hnb : WFStr n ∧ WFBuf codec b := hwf (n, b) (List.mem_cons_self _ _)
    have hexf : exists' acc n = false :=
      exists'_eq_false_of_lookup'_none (hacc (n, b) (List.mem_cons_self _ _))
    rw [saveRecords_cons, List.append_assoc]
    rw [show ((n, b) :: recs).length + fuel + 1 =
      (recs.length + fuel + 1) + 1 by simp; omega]
    rw [show loadLoop codec od 1 ((recs.length + fuel + 1) + 1) acc
        (saveRecord n b ++ (saveRecords recs ++ tail)) =
        match loadStep codec od 1 acc
            (saveRecord n b ++ (saveRecords recs ++ tail)) with
        | .error e => .error e
        | .ok none => .ok acc
        | .ok (some (acc', rest)) =>
          loadLoop codec od 1 (recs.length + fuel + 1) acc' rest from rfl]
    rw [loadStep_record codec od acc n b _ hnb.1 hnb.2]
    rw [hexf]
    simp only [Bool.false_eq_true, if_false]
    rw [ih fuel (acc ++ [(n, loadedBuf od b)]) tail
      (fun q hq => hwf q (List.mem_cons_of_mem _ hq))
      ?_ (by simpa using hnd.of_cons)]
    · rw [reloadTable_cons, List.append_assoc]
      rfl
    · intro q hq
      have hq1 : lookup' acc q.1 = none := hacc q (List.mem_cons_of_mem _ hq)
      have hqn : n ≠ q.1 := by
        intro hcontra
        have : q.1 ∈ recs.map Prod.fst := List.mem_map.mpr ⟨q, hq, rfl⟩
        rw [← hcontra] at this
        exact (List.nodup_cons.mp (by simpa using hnd)).1 this
      rw [lookup'_append, hq1, lookup'_single_ne n q.1 _ hqn]
      rfl

/-- Running the mapped loader over the concatenated records of a table
with fresh, distinct, well-formed entries consumes them all and appends
their deferred-compression buffers. -/
theorem loadMmapLoop_records (codec : Codec) :
    ∀ (recs : FileMap) (fuel : Nat) (acc : FileMap) (tail : List Nat),
      (∀ p ∈ recs, WFStr p.1 ∧ WFBuf codec p.2) →
      (∀ p ∈ recs, lookup' acc p.1 = none) →
      ((recs.map Prod.fst).Nodup) →
      loadMmapLoop (recs.length + fuel + 1) acc (saveRecords recs ++ tail) =
        loadMmapLoop (fuel + 1) (acc ++ reloadTable true recs) tail := by
  intro recs
  induction recs with
  | nil =>
    intro fuel acc tail _ _ _
    simp [saveRecords, reloadTable]
  | cons p recs ih =>
    intro fuel acc tail hwf hacc hnd
    obtain ⟨n, b⟩ := p
    have hnb : WFStr n ∧ WFBuf codec b := hwf (n, b) (List.mem_cons_self _ _)
    have hexf : exists' acc n = false :=
      exists'_eq_false_of_lookup'_none (hacc (n, b) (List.mem_cons_self _ _))
    rw [saveRecords_cons, List.append_assoc]
    rw [show ((n, b) :: recs).length + fuel + 1 =
      (recs.length + fuel + 1) + 1 by simp; omega]
    rw [show loadMmapLoop ((recs.length + fuel + 1) + 1) acc
        (saveRecord n b ++ (saveRecords recs ++ tail)) =
        match loadMmapStep acc
            (saveRecord n b ++ (saveRecords recs ++ tail)) with
        | .error e => .error e
        | .ok none => .ok acc
        | .ok (some (acc', rest)) =>
          loadMmapLoop (recs.length + fuel + 1) acc' rest from rfl]
    rw [loadMmapStep_record acc n b _ hnb.1 codec hnb.2]
    rw [hexf]
    simp only [Bool.false_eq_true, if_false]
    rw [ih fuel (acc ++ [(n, loadedBuf true b)]) tail
      (fun q hq => hwf q (List.mem_cons_of_mem _ hq))
      ?_ (by simpa using hnd.of_cons)]
    · rw [reloadTable_cons, List.append_assoc]
      rfl
    · intro q hq
      have hq1 : lookup' acc q.1 = none := hacc q (List.mem_cons_of_mem _ hq)
      have hqn : n ≠ q.1 := by
        intro hcontra
        have : q.1 ∈ recs.map Prod.fst := List.mem_map.mpr ⟨q, hq, rfl⟩
        rw [← hcontra] at this
        exact (List.nodup_cons.mp (by simpa using hnd)).1 this
      rw [lookup'_append, hq1, lookup'_single_ne n q.1 _ hqn]
      rfl

/-- `load` (eager or deferred) over the saved bytes of a well-formed
table reproduces the table up to `loadedBuf`. -/
theorem load_saveBytes (codec : Codec) (od : Bool) (t : FileMap)
    (hwft : WFTable codec t) :
    load codec od 1 (saveBytes t) = .ok (reloadTable od t) := by
  obtain ⟨hall, hnd⟩ := hwft
  unfold load
  rw [if_pos (by norm_num : (0 : Int) < 1)]
  have hdrop : (saveBytes t).drop 4 = saveRecords t := by
    simp [saveBytes, encInt16]
  rw [hdrop]
  have hlen := saveRecords_length_ge t
  obtain ⟨f0, hf0⟩ : ∃ f0, (saveRecords t).length + 1 =
      t.length + f0 + 1 := ⟨(saveRecords t).length - t.length, by omega⟩
  rw [hf0]
  have h := loadLoop_records codec od t f0 [] []
    (fun p hp => ⟨(hall p hp).1, (hall p hp).2⟩)
    (fun p _ => lookup'_nil p.1) hnd
  rw [List.append_nil] at h
  rw [h, loadLoop_nil]
  simp

/-- `loadMmap` over the saved bytes of a well-formed table reproduces the
table with all compressed entries deferred. -/
theorem loadMmap_saveBytes (codec : Codec) (t : FileMap)
    (hwft : WFTable codec t) :
    loadMmap 1 (saveBytes t) = .ok (reloadTable true t) := by
  obtain ⟨hall, hnd⟩ := hwft
  unfold loadMmap
  rw [if_neg (by norm_num : ¬(1 : Int) ≤ 0)]
  have hdrop : (saveBytes t).drop 4 = saveRecords t := by
    simp [saveBytes, encInt16]
  rw [hdrop]
  have hlen := saveRecords_length_ge t
  obtain ⟨f0, hf0⟩ : ∃ f0, (saveRecords t).length + 1 =
      t.length + f0 + 1 := ⟨(saveRecords t).length - t.length, by omega⟩
  rw [hf0]
  have h := loadMmapLoop_records codec t f0 [] []
    (fun p hp => ⟨(hall p hp).1, (hall p hp).2⟩)
    (fun p _ => lookup'_nil p.1) hnd
  rw [List.append_nil] at h
  rw [h, loadMmapLoop_nil]
  simp

theorem lookup'_reloadTable (od : Bool) (t : FileMap) (k : Str) :
    lookup' (reloadTable od t) k = (lookup' t k).map (loadedBuf od) := by
  induction t with
  | nil => rfl
  | cons p t ih =>
    obtain ⟨n, b⟩ := p
    rw [reloadTable_cons, lookup'_cons, lookup'_cons]
    by_cases h : n = k
    · simp [h]
    · simp [h, ih]

/-- Reloading with eager decompression is invisible to every query: the
only field it can change is `clen` of an entry with no compressed form,
which no query reads. -/
theorem queryEquiv_reload_eager (codec : Codec) (t : FileMap) :
    QueryEquiv codec t (reloadTable false t) := by
  intro name
  have hl := lookup'_reloadTable false t name
  refine ⟨?_, ?_, ?_, ?_, ?_⟩
  · unfold exists'
    rw [hl]
    cases lookup' t name <;> simp
  · unfold dirExists
    rw [hl]
    cases hb : lookup' t name with
    | none => simp
    | some b =>
      obtain ⟨blen, bdata, bclen, bcdata⟩ := b
      cases bcdata <;> simp [loadedBuf]
  · unfold fileExists
    rw [hl]
    cases hb : lookup' t name with
    | none => simp
    | some b =>
      obtain ⟨blen, bdata, bclen, bcdata⟩ := b
      cases bcdata <;> simp [loadedBuf]
  · intro len0 c0
    unfold read
    rw [hl]
    cases hb : lookup' t name with
    | none => simp
    | some b =>
      obtain ⟨blen, bdata, bclen, bcdata⟩ := b
      cases bcdata <;> simp [loadedBuf]
  · unfold fileSize
    rw [hl]
    cases hb : lookup' t name with
    | none => simp
    | some b =>
      obtain ⟨blen, bdata, bclen, bcdata⟩ := b
      cases bcdata <;> simp [loadedBuf]

/-! ## Builder invariant: the tables the builder produces are
well-formed -/

theorem lookup'_isSome_of_mem_keys {t : FileMap} {k : Str}
    (h : k ∈ t.map Prod.fst) : (lookup' t k).isSome := by
  induction t with
  | nil => simp at h
  | cons p t ih =>
    obtain ⟨n, b⟩ := p
    rw [lookup'_cons]
    by_cases hk : n = k
    · simp [hk]
    · rw [if_neg hk]
      apply ih
      simp only [List.map_cons, List.mem_cons] at h
      rcases h with h | h
      · exact absurd h.symm hk
      · exact h

theorem getD_ne_default_lt {l : List Nat} {i : Nat} (h : l.getD i 0 = 47) :
    i < l.length := by
  by_contra hge
  rw [List.getD_eq_default] at h
  · omega
  · omega

theorem writeDirectories_wf (codec : Codec) (t : FileMap) (name : Str)
    (hb : name.length < 32768) (hwft : WFTable codec t) :
    WFTable codec (writeDirectories t name) := by
  rw [writeDirectories_eq_fold]
  have key : ∀ (L : List Nat) (acc : FileMap), WFTable codec acc →
      WFTable codec (L.foldl (wdStep name) acc) := by
    intro L
    induction L with
    | nil => intro acc h; exact h
    | cons j L ih =>
      intro acc h
      apply ih
      unfold wdStep
      split
      · rename_i hcond
        split
        · exact h
        · rename_i hnex
          have hcond' : 1 ≤ j ∧ name.getD j 0 = 47 := by
            simpa using hcond
          have hj1 : 1 ≤ j := hcond'.1
          have hj47 : name.getD j 0 = 47 := hcond'.2
          have hjlt : j < name.length := getD_ne_default_lt hj47
          have htlen : (name.take j).length = j := by
            simp only [List.length_take]
            omega
          obtain ⟨hall, hnd⟩ := h
          constructor
          · intro p hp
            rcases List.mem_append.mp hp with hp | hp
            · exact hall p hp
            · simp only [List.mem_singleton] at hp
              subst hp
              refine ⟨⟨?_, ?_⟩, Or.inl ⟨rfl, rfl, rfl⟩⟩
              · show 0 < (name.take j).length
                omega
              · show (name.take j).length < 32768
                omega
          · rw [List.map_append]
            rw [List.nodup_append]
            refine ⟨hnd, by simp, ?_⟩
            intro a ha
            simp only [List.map_cons, List.map_nil, List.mem_singleton]
            intro hcontra
            subst hcontra
            apply hnex
            have : (lookup' acc (name.take j)).isSome :=
              lookup'_isSome_of_mem_keys ha
            simp [exists', this, isEmpty_false_of_length_pos (by omega :
              0 < (name.take j).length)]
      · exact h
  exact key _ t hwft

theorem WFTable_append_single (codec : Codec) (t : FileMap) (name : Str)
    (b : Buffer) (hwft : WFTable codec t) (hn : WFStr name)
    (hb : WFBuf codec b) (hnm : name ∉ t.map Prod.fst) :
    WFTable codec (t ++ [(name, b)]) := by
  obtain ⟨hall, hnd⟩ := hwft
  constructor
  · intro p hp
    rcases List.mem_append.mp hp with hp | hp
    · exact hall p hp
    · simp only [List.mem_singleton] at hp
      subst hp
      exact ⟨hn, hb⟩
  · rw [List.map_append, List.nodup_append]
    refine ⟨hnd, by simp, ?_⟩
    intro a ha
    simp only [List.map_cons, List.map_nil, List.mem_singleton]
    intro hcontra
    subst hcontra
    exact hnm ha

theorem writeFile_wf (codec : Codec) (hcodec : CodecOK codec)
    (t t' : FileMap) (name : Str) (contents : List Nat)
    (hb : name.length < 32768) (hc31 : contents.length < 2147483648)
    (hwft : WFTable codec t)
    (ht' : writeFile codec t name contents = .ok t') :
    WFTable codec t' := by
  unfold writeFile at ht'
  by_cases h1 : name.isEmpty = true
  · rw [if_pos h1] at ht'; cases ht'
  · rw [if_neg h1] at ht'
    by_cases h2 : exists' t name = true
    · rw [if_pos h2] at ht'; cases ht'
    · rw [if_neg h2] at ht'
      injection ht' with ht'
      subst ht'
      apply writeDirectories_wf codec _ name hb
      have hpos : 0 < name.length := by
        cases name with
        | nil => exact absurd rfl h1
        | cons a l => simp
      have hnm : name ∉ t.map Prod.fst := by
        intro hmem
        exact h2 (by simp [exists', lookup'_isSome_of_mem_keys hmem,
          isEmpty_false_of_length_pos hpos])
      apply WFTable_append_single codec t name _ hwft ⟨hpos, hb⟩ ?_ hnm
      -- the built buffer is well-formed
      by_cases hz : contents.length ≠ 0
      · rw [if_pos hz]
        have hcp : 0 < contents.length := by omega
        by_cases hic : codec.isCompressible name = true
        · rw [if_pos hic]
          cases henc : codec.gzencode contents with
          | none =>
            exact Or.inr (Or.inr (Or.inr ⟨contents, rfl, rfl, hcp, hc31,
              Or.inl rfl⟩))
          | some comp =>
            show WFBuf codec (if (comp.length : Int) <
                ((contents.length : Int) * 3) / 4 then
              ⟨(contents.length : Int), some contents, (comp.length : Int),
                some comp⟩
            else ⟨(contents.length : Int), some contents, -1, none⟩)
            by_cases hthr : (comp.length : Int) <
                ((contents.length : Int) * 3) / 4
            · rw [if_pos hthr]
              refine Or.inr (Or.inr (Or.inr ⟨contents, rfl, rfl, hcp, hc31,
                Or.inr ⟨comp, rfl, rfl, hcodec.enc_pos _ _ henc, by omega,
                  hcodec.enc_dec _ _ henc⟩⟩))
            · rw [if_neg hthr]
              exact Or.inr (Or.inr (Or.inr ⟨contents, rfl, rfl, hcp, hc31,
                Or.inl rfl⟩))
        · rw [if_neg hic]
          exact Or.inr (Or.inr (Or.inr ⟨contents, rfl, rfl, hcp, hc31,
            Or.inl rfl⟩))
      · rw [if_neg hz]
        have : contents.length = 0 := by omega
        exact Or.inr (Or.inr (Or.inl ⟨by simp [this], rfl, rfl⟩))

theorem buildTable_wf (codec : Codec) (hcodec : CodecOK codec) :
    ∀ (pairs : List (Str × List Nat)) (t0 t : FileMap),
      (∀ p ∈ pairs, p.1.length < 32768 ∧ p.2.length < 2147483648) →
      WFTable codec t0 →
      buildTable codec pairs t0 = .ok t →
      WFTable codec t := by
  intro pairs
  induction pairs with
  | nil =>
    intro t0 t _ h0 ht
    unfold buildTable at ht
    injection ht with ht
    subst ht
    exact h0
  | cons p rest ih =>
    intro t0 t hb h0 ht
    obtain ⟨n, c⟩ := p
    unfold buildTable at ht
    cases hw : writeFile codec t0 n c with
    | error e => rw [hw] at ht; cases ht
    | ok t1 =>
      rw [hw] at ht
      exact ih t1 t (fun q hq => hb q (List.mem_cons_of_mem _ hq))
        (writeFile_wf codec hcodec t0 t1 n c
          (hb (n, c) (List.mem_cons_self _ _)).1
          (hb (n, c) (List.mem_cons_self _ _)).2 h0 hw) ht

theorem WFTable_nil (codec : Codec) : WFTable codec [] :=
  ⟨by simp, by simp⟩

/-! ## C1 — serialize / owned-load round trip -/

/-- C1: for any set of (path, bytes) pairs with unique, slash-containing
paths registered through the builder (with representable name and payload
lengths, and an honest codec), saving the table and reloading the bytes
with the owned loader (eager mode) yields a table on which `exists`,
`dirExists`, `fileExists`, `read` and `fileSize` answer exactly as on the
original table. -/
theorem save_load_roundtrip (codec : Codec) (hcodec : CodecOK codec)
    (pairs : List (Str × List Nat)) (t : FileMap)
    (hb : ∀ p ∈ pairs, p.1.length < 32768 ∧ p.2.length < 2147483648 ∧
      47 ∈ p.1)
    (ht : buildTable codec pairs [] = .ok t) :
    ∃ t', load codec false 1 (saveBytes t) = .ok t' ∧
      QueryEquiv codec t t' := by
  have hwft : WFTable codec t :=
    buildTable_wf codec hcodec pairs [] t
      (fun p hp => ⟨(hb p hp).1, (hb p hp).2.1⟩) (WFTable_nil codec) ht
  exact ⟨reloadTable false t, load_saveBytes codec false t hwft,
    queryEquiv_reload_eager codec t⟩

theorem save_load_roundtrip_witness :
    load (Codec.mk (fun _ => false) (fun _ => none) (fun _ => none)) false 1
        (saveBytes [([97, 47, 98], ⟨3, some [1, 2, 3], -1, none⟩),
          ([97], ⟨-2, none, -2, none⟩)]) =
      .ok [([97, 47, 98], ⟨3, some [1, 2, 3], -1, none⟩),
        ([97], ⟨-2, none, -1, none⟩)] ∧
    QueryEquiv (Codec.mk (fun _ => false) (fun _ => none) (fun _ => none))
      [([97, 47, 98], ⟨3, some [1, 2, 3], -1, none⟩),
        ([97], ⟨-2, none, -2, none⟩)]
      [([97, 47, 98], ⟨3, some [1, 2, 3], -1, none⟩),
        ([97], ⟨-2, none, -1, none⟩)] := by
  obtain ⟨t', h1, h2⟩ := save_load_roundtrip
    (Codec.mk (fun _ => false) (fun _ => none) (fun _ => none))
    ⟨fun s c h => (nomatch h), fun s c h => (nomatch h)⟩
    [([97, 47, 98], [1, 2, 3])] _ (by decide) rfl
  have heq : (Except.ok t' : Except String FileMap) =
      .ok [([97, 47, 98], ⟨3, some [1, 2, 3], -1, none⟩),
        ([97], ⟨-2, none, -1, none⟩)] :=
    h1.symm.trans (by rfl)
  injection heq with heq
  subst heq
  exact ⟨h1, h2⟩

/-! ## C5 — duplicate rejection -/

/-- C5: registering an already-present path fails before mutating the
table (both the placeholder writer and the file writer assert first), and
an archive byte stream carrying two records for the same path — whatever
the second record's contents — fails the whole load with a format error,
in both the owned loader and the mapped loader. -/
theorem duplicate_rejection (codec : Codec) (od ad : Bool) (t : FileMap)
    (name : Str) (contents : List Nat)
    (recsA : FileMap) (n : Str) (b2 : Buffer) (suffix : List Nat)
    (hex : exists' t name = true)
    (hwf : ∀ p ∈ recsA, WFStr p.1 ∧ WFBuf codec p.2)
    (hnd : (recsA.map Prod.fst).Nodup)
    (hmem : n ∈ recsA.map Prod.fst) (hn : WFStr n) :
    write' t name ad = .error "assert: !exists(name)" ∧
    writeFile codec t name contents = .error "assert: !exists(name)" ∧
    load codec od 1 (saveBytes recsA ++ (saveRecord n b2 ++ suffix)) =
      .error "Same file appeared twice" ∧
    loadMmap 1 (saveBytes recsA ++ (saveRecord n b2 ++ suffix)) =
      .error "Same file appeared twice" := by
  have hie : name.isEmpty = false := by
    cases hni : name.isEmpty
    · rfl
    · rw [exists', hni] at hex
      simp at hex
  have hdup : exists' ([] ++ reloadTable od recsA) n = true := by
    rw [List.nil_append, exists', isEmpty_false_of_length_pos hn.1]
    have hk : n ∈ (reloadTable od recsA).map Prod.fst := by
      rw [reloadTable_keys]; exact hmem
    simp [lookup'_isSome_of_mem_keys hk]
  have hdup' : exists' ([] ++ reloadTable true recsA) n = true := by
    rw [List.nil_append, exists', isEmpty_false_of_length_pos hn.1]
    have hk : n ∈ (reloadTable true recsA).map Prod.fst := by
      rw [reloadTable_keys]; exact hmem
    simp [lookup'_isSome_of_mem_keys hk]
  refine ⟨?_, ?_, ?_, ?_⟩
  · rw [write', if_neg (by rw [hie]; exact fun h => nomatch h), if_pos hex]
  · rw [writeFile, if_neg (by rw [hie]; exact fun h => nomatch h), if_pos hex]
  · -- owned loader
    unfold load
    rw [if_pos (by norm_num : (0 : Int) < 1)]
    have hdrop : (saveBytes recsA ++ (saveRecord n b2 ++ suffix)).drop 4 =
        saveRecords recsA ++ (saveRecord n b2 ++ suffix) := by
      simp [saveBytes, encInt16, List.append_assoc]
    rw [hdrop]
    have hlen := saveRecords_length_ge recsA
    obtain ⟨f0, hf0⟩ : ∃ f0,
        (saveRecords recsA ++ (saveRecord n b2 ++ suffix)).length + 1 =
          recsA.length + f0 + 1 :=
      ⟨(saveRecords recsA ++ (saveRecord n b2 ++ suffix)).length -
        recsA.length, by simp only [List.length_append]; omega⟩
    rw [hf0]
    rw [loadLoop_records codec od recsA f0 [] (saveRecord n b2 ++ suffix)
      hwf (fun p _ => lookup'_nil p.1) hnd]
    rw [show loadLoop codec od 1 (f0 + 1) ([] ++ reloadTable od recsA)
        (saveRecord n b2 ++ suffix) =
        match loadStep codec od 1 ([] ++ reloadTable od recsA)
            (saveRecord n b2 ++ suffix) with
        | .error e => .error e
        | .ok none => .ok ([] ++ reloadTable od recsA)
        | .ok (some (acc', rest)) => loadLoop codec od 1 f0 acc' rest
      from rfl]
    rw [loadStep_dup codec od 1 _ n b2 suffix hn hdup]
  · -- mapped loader
    unfold loadMmap
    rw [if_neg (by norm_num : ¬(1 : Int) ≤ 0)]
    have hdrop : (saveBytes recsA ++ (saveRecord n b2 ++ suffix)).drop 4 =
        saveRecords recsA ++ (saveRecord n b2 ++ suffix) := by
      simp [saveBytes, encInt16, List.append_assoc]
    rw [hdrop]
    have hlen := saveRecords_length_ge recsA
    obtain ⟨f0, hf0⟩ : ∃ f0,
        (saveRecords recsA ++ (saveRecord n b2 ++ suffix)).length + 1 =
          recsA.length + f0 + 1 :=
      ⟨(saveRecords recsA ++ (saveRecord n b2 ++ suffix)).length -
        recsA.length, by simp only [List.length_append]; omega⟩
    rw [hf0]
    rw [loadMmapLoop_records codec recsA f0 [] (saveRecord n b2 ++ suffix)
      hwf (fun p _ => lookup'_nil p.1) hnd]
    rw [show loadMmapLoop (f0 + 1) ([] ++ reloadTable true recsA)
        (saveRecord n b2 ++ suffix) =
        match loadMmapStep ([] ++ reloadTable true recsA)
            (saveRecord n b2 ++ suffix) with
        | .error e => .error e
        | .ok none => .ok ([] ++ reloadTable true recsA)
        | .ok (some (acc', rest)) => loadMmapLoop f0 acc' rest
      from rfl]
    rw [loadMmapStep_dup _ n b2 suffix hn hdup']

theorem duplicate_rejection_witness :
    write' [([97], dirBuffer)] [97] true = .error "assert: !exists(name)" ∧
    writeFile (Codec.mk (fun _ => false) (fun _ => none) (fun _ => none))
      [([97], dirBuffer)] [97] [5] = .error "assert: !exists(name)" ∧
    load (Codec.mk (fun _ => false) (fun _ => none) (fun _ => none)) true 1
      (saveBytes [([97], ⟨-1, none, -1, none⟩)] ++
        (saveRecord [97] ⟨-1, none, -1, none⟩ ++ [])) =
      .error "Same file appeared twice" ∧
    loadMmap 1 (saveBytes [([97], ⟨-1, none, -1, none⟩)] ++
        (saveRecord [97] ⟨-1, none, -1, none⟩ ++ [])) =
      .error "Same file appeared twice" :=
  duplicate_rejection
    (Codec.mk (fun _ => false) (fun _ => none) (fun _ => none)) true true
    [([97], dirBuffer)] [97] [5] [([97], ⟨-1, none, -1, none⟩)] [97]
    ⟨-1, none, -1, none⟩ [] (by decide)
    (by
      intro p hp
      simp only [List.mem_singleton] at hp
      subst hp
      exact ⟨⟨by decide, by decide⟩, Or.inr (Or.inl ⟨rfl, rfl, rfl⟩)⟩)
    (by decide) (by decide) ⟨by decide, by decide⟩

/-! ## C7 — mapped-loader bounds checking -/

theorem take_append_ge (a b : List Nat) (n : Nat) (h : a.length ≤ n) :
    (a ++ b).take n = a ++ b.take (n - a.length) := by
  rw [List.take_append_eq_append_take, List.take_of_length_le h]

/-- Truncating a well-formed serialized record strictly inside it makes
the mapped loader's step fail with a format error: every field read
(name length, name bytes, compressed flag, payload length, payload plus
terminator) is bounds-checked against the end of the region. -/
theorem loadMmapStep_truncated (codec : Codec) (acc : FileMap)
    (name : Str) (b : Buffer) (k : Nat)
    (hn : WFStr name) (hb : WFBuf codec b)
    (hk0 : 0 < k) (hklt : k < (saveRecord name b).length) :
    ∃ e, loadMmapStep acc ((saveRecord name b).take k) = .error e := by
  obtain ⟨hpos, hlt⟩ := hn
  obtain ⟨flag, X, tp, hspp, hX1, hX2, htp1, htp2⟩ :
      ∃ flag X tp, savePayloadPart b = flag :: (encInt32 X ++ tp) ∧
        -2147483648 ≤ X ∧ X < 2147483648 ∧
        (0 < X → tp.length = X.toNat + 1) ∧ (¬0 < X → tp = []) := by
    obtain ⟨blen, bdata, bclen, bcdata⟩ := b
    rcases hb with ⟨h1, h2, h3⟩ | ⟨h1, h2, h3⟩ | ⟨h1, h2, h3⟩ |
      ⟨payload, hdata, hlen, hp, hlt31, hc⟩
    case _ | _ | _ =>
      simp only at h1 h2 h3
      subst h2 h3
      have hno : ¬(0 : Int) < blen := by omega
      refine ⟨0, blen, [], ?_, by omega, by omega,
        fun h => absurd h hno, fun _ => rfl⟩
      simp [savePayloadPart, if_neg hno]
    case _ =>
      simp only at hdata hlen
      subst hdata hlen
      rcases hc with hcd | ⟨c', hcd, hclen, hcp, hclt, -⟩
      · simp only at hcd
        subst hcd
        refine ⟨0, (payload.length : Int), payload ++ [0], ?_, by omega,
          by omega, fun _ => by simp,
          fun h => absurd (by omega : (0 : Int) < (payload.length : Int)) h⟩
        simp only [savePayloadPart, Option.getD_some]
        rw [if_pos (by omega : (0 : Int) < (payload.length : Int))]
        simp [Int.toNat_natCast, List.take_length]
      · simp only at hcd hclen
        subst hcd
        have htcn : bclen.toNat = c'.length := by omega
        refine ⟨1, bclen, c' ++ [0], ?_, by omega, by omega,
          fun _ => by simp [htcn],
          fun h => absurd (by omega : (0 : Int) < bclen) h⟩
        simp [savePayloadPart, htcn, List.take_length]
  rcases Nat.lt_or_ge k 2 with hk2 | hk2
  · -- k = 1: the 2-byte name-length read crosses the end
    have hk1 : k = 1 := by omega
    subst hk1
    have hsrpos := saveRecord_length_pos name b
    have hie : ((saveRecord name b).take 1).isEmpty = false :=
      isEmpty_false_of_length_pos (by rw [List.length_take]; omega)
    refine ⟨"Bad file name length in archive", ?_⟩
    unfold loadMmapStep
    simp only [hie, Bool.false_eq_true, if_false,
      readN_short 2 ((saveRecord name b).take 1)
        (by rw [List.length_take]; omega)]
  · -- k ≥ 2: the name-length field is intact
    have hR : (saveRecord name b).take k =
        encInt16 (name.length : Int) ++
          ((name ++ savePayloadPart b).take (k - 2)) := by
      rw [show saveRecord name b =
        encInt16 (name.length : Int) ++ (name ++ savePayloadPart b) from rfl]
      rw [take_append_ge _ _ _ (by rw [encInt16_length]; omega),
        encInt16_length]
    have hdec : decInt16 (encInt16 (name.length : Int)) = (name.length : Int) :=
      decInt16_encInt16 _ (by omega) (by omega)
    have htn : ((name.length : Int)).toNat = name.length := by omega
    have hie : (encInt16 (name.length : Int) ++
        ((name ++ savePayloadPart b).take (k - 2))).isEmpty = false :=
      isEmpty_false_of_length_pos (by simp [encInt16])
    rw [hR]
    unfold loadMmapStep
    simp only [hie, Bool.false_eq_true, if_false, readN_encInt16, hdec, htn,
      if_neg (show ¬(name.length : Int) ≤ 0 by omega)]
    rcases Nat.lt_or_ge (k - 2) name.length with hkb | hkc
    · -- the name bytes cross the end
      have hname : (name ++ savePayloadPart b).take (k - 2) =
          name.take (k - 2) := by
        rw [List.take_append_eq_append_take,
          show k - 2 - name.length = 0 from by omega]
        simp
      rw [hname]
      simp only [readN_short name.length (name.take (k - 2))
        (by rw [List.length_take]; omega)]
      exact ⟨_, rfl⟩
    · -- name intact; the flag/length/payload fields are truncated
      have hname2 : (name ++ savePayloadPart b).take (k - 2) =
          name ++ (savePayloadPart b).take (k - 2 - name.length) := by
        rw [List.take_append_eq_append_take, List.take_of_length_le hkc]
      have hsrlen : (saveRecord name b).length =
          2 + name.length + (savePayloadPart b).length := by
        simp only [saveRecord, List.length_append, encInt16_length]
      have hmlt : k - 2 - name.length < (savePayloadPart b).length := by
        omega
      simp only [hname2,
        readN_append name ((savePayloadPart b).take (k - 2 - name.length))]
      by_cases hex : exists' acc name = true
      · refine ⟨"Same file appeared twice", ?_⟩
        simp only [hex, if_true]
      · simp only [hex, Bool.false_eq_true, if_false]
        rw [hspp] at hmlt
        rw [List.length_cons, List.length_append, encInt32_length] at hmlt
        rw [hspp]
        rcases Nat.eq_zero_or_pos (k - 2 - name.length) with hm0 | hmp
        · -- not even the flag byte remains
          rw [hm0]
          simp only [List.take_zero, readN_short 1 [] (by simp)]
          exact ⟨_, rfl⟩
        · obtain ⟨m', hm'⟩ : ∃ m', k - 2 - name.length = m' + 1 :=
            ⟨k - 2 - name.length - 1, by omega⟩
          rw [hm'] at hmlt ⊢
          simp only [List.take_succ_cons, readN_cons]
          rcases Nat.lt_or_ge m' 4 with hm4 | hm4
          · -- the 4-byte length field crosses the end
            simp only [readN_short 4 ((encInt32 X ++ tp).take m') (by
              rw [List.length_take, List.length_append, encInt32_length]
              omega)]
            exact ⟨_, rfl⟩
          · -- length field intact; the payload bounds check fires
            rw [take_append_ge _ _ _ (by rw [encInt32_length]; omega),
              encInt32_length]
            simp only [readN_encInt32, decInt32_encInt32 X hX1 hX2]
            by_cases hXpos : 0 < X
            · have hcond : (tp.take (m' - 4)).length ≤ X.toNat := by
                rw [List.length_take]
                have := htp1 hXpos
                omega
              simp only [if_pos hXpos, if_pos hcond]
              exact ⟨_, rfl⟩
            · exfalso
              rw [htp2 hXpos] at hmlt
              simp at hmlt
              omega

/-- C7: during a zero-copy mapped load, every field read (name length,
name bytes, compressed flag, payload length, payload bytes plus
terminator) is bounds-checked against the end of the mapped region:
truncating the region strictly inside the final record — so that some
field's declared size crosses the end — makes `loadMmap` raise a format
error rather than read out of bounds. -/
theorem loadMmap_bounds_checked (codec : Codec) (recs : FileMap)
    (name : Str) (b : Buffer) (k : Nat)
    (hwf : ∀ p ∈ recs, WFStr p.1 ∧ WFBuf codec p.2)
    (hnd : (recs.map Prod.fst).Nodup)
    (hn : WFStr name) (hb : WFBuf codec b)
    (hk0 : 0 < k) (hklt : k < (saveRecord name b).length) :
    ∃ e, loadMmap 1 (saveBytes recs ++ (saveRecord name b).take k) =
      .error e := by
  unfold loadMmap
  rw [if_neg (by norm_num : ¬(1 : Int) ≤ 0)]
  have hdrop : (saveBytes recs ++ (saveRecord name b).take k).drop 4 =
      saveRecords recs ++ (saveRecord name b).take k := by
    simp [saveBytes, encInt16, List.append_assoc]
  rw [hdrop]
  have hlen := saveRecords_length_ge recs
  obtain ⟨f0, hf0⟩ : ∃ f0,
      (saveRecords recs ++ (saveRecord name b).take k).length + 1 =
        recs.length + f0 + 1 :=
    ⟨(saveRecords recs ++ (saveRecord name b).take k).length - recs.length,
      by simp only [List.length_append]; omega⟩
  rw [hf0]
  rw [loadMmapLoop_records codec recs f0 [] _ hwf
    (fun p _ => lookup'_nil p.1) hnd]
  obtain ⟨e, he⟩ := loadMmapStep_truncated codec ([] ++ reloadTable true recs)
    name b k hn hb hk0 hklt
  refine ⟨e, ?_⟩
  rw [show loadMmapLoop (f0 + 1) ([] ++ reloadTable true recs)
      ((saveRecord name b).take k) =
      match loadMmapStep ([] ++ reloadTable true recs)
          ((saveRecord name b).take k) with
      | .error e => .error e
      | .ok none => .ok ([] ++ reloadTable true recs)
      | .ok (some (acc', rest)) => loadMmapLoop f0 acc' rest from rfl]
  rw [he]

theorem loadMmap_bounds_checked_witness :
    ∃ e, loadMmap 1 (saveBytes [] ++
      (saveRecord [97] ⟨-1, none, -1, none⟩).take 3) = .error e :=
  loadMmap_bounds_checked
    (Codec.mk (fun _ => false) (fun _ => none) (fun _ => none)) [] [97]
    ⟨-1, none, -1, none⟩ 3 (by simp) (by simp) ⟨by decide, by decide⟩
    (Or.inr (Or.inl ⟨rfl, rfl, rfl⟩)) (by decide) (by decide)

end FileCache
